import Mathlib

/-!
Shallow embedding of the `lss` secret scanner.

The Rust sources embedded here are:
* `src/lib.rs` — `shannon_entropy` over the bytes of a string;
* `src/rules.rs` — the `Rule` record and the line-oriented `parse_rules`
  loader (`Name::Pattern[::tags[::confidence]]`);
* `src/main.rs` — `scan_file` (per-line matching aggregated per
  `(line, trimmed snippet)` key), `should_ignore` (substring containment),
  `scan_git_history` (stack-based tree walk, per-line entropy gate before
  aggregation) and the post-scan retain filters of `main`.

External library behaviour is made explicit:
* machine floats (`f64`) are modelled exactly, as `ℚ` for rule confidences
  and as `ℝ` for entropies;
* the `regex` crate appears as an abstract compile step
  `String → Option (String → Bool)` (a compiled regex is its line matcher);
* Rust string primitives (`str::lines`, `str::trim`, `str::split`,
  `str::contains`, UTF-8 byte view) are reimplemented structurally below
  with the semantics documented in the Rust standard library;
* the git object store appears as an inductive tree of named entries, a
  commit being its id together with its root tree, and the revwalk output
  being the input list of commits.
-/

namespace Lss

/-- UTF-8 encoding of one scalar value, as the list of its byte values.
Models the byte view `str::bytes` takes of one `Char`. -/
def encodeChar (c : Char) : List Nat :=
  let n := c.toNat
  if n < 0x80 then [n]
  else if n < 0x800 then [0xC0 + n / 64, 0x80 + n % 64]
  else if n < 0x10000 then [0xE0 + n / 4096, 0x80 + (n / 64) % 64, 0x80 + n % 64]
  else [0xF0 + n / 0x40000, 0x80 + (n / 4096) % 64, 0x80 + (n / 64) % 64, 0x80 + n % 64]

/-- The UTF-8 bytes of a string: the view `s.bytes()` and `s.len()` work on
in Rust. -/
def strBytes (s : String) : List Nat :=
  (s.toList.map encodeChar).flatten

/-- Characters with the Unicode `White_Space` property, as used by Rust's
`char::is_whitespace` (and hence `str::trim`). -/
def isRustWhitespace (c : Char) : Bool :=
  c.toNat ∈ [0x09, 0x0A, 0x0B, 0x0C, 0x0D, 0x20, 0x85, 0xA0, 0x1680,
    0x2000, 0x2001, 0x2002, 0x2003, 0x2004, 0x2005, 0x2006, 0x2007,
    0x2008, 0x2009, 0x200A, 0x2028, 0x2029, 0x202F, 0x205F, 0x3000]

/-- Remove leading and trailing whitespace from a character list:
Rust's `str::trim`. -/
def trimChars (l : List Char) : List Char :=
  ((l.dropWhile isRustWhitespace).reverse.dropWhile isRustWhitespace).reverse

/-- Rust's `str::trim` on strings. -/
def strTrim (s : String) : String :=
  ⟨trimChars s.toList⟩

/-- Accumulating worker for `linesOf`.  A line ends at each `'\n'`; a `'\r'`
immediately before the `'\n'` is dropped; the final line needs no
terminator and a terminating `'\n'` produces no extra empty line.  The
accumulator holds the current line reversed. -/
def linesAux : List Char → List Char → List (List Char)
  | [], acc => if acc.isEmpty then [] else [acc.reverse]
  | c :: cs, acc =>
    if c = '\n' then
      (if acc.head? = some '\r' then acc.tail else acc).reverse :: linesAux cs []
    else linesAux cs (c :: acc)

/-- Rust's `str::lines`. -/
def linesOf (s : String) : List String :=
  (linesAux s.toList []).map (fun l => ⟨l⟩)

/-- Leftmost, non-overlapping split on the two-character separator `"::"`:
Rust's `str::split("::")` as used by `parse_rules`.  The accumulator holds
the current field reversed. -/
def splitDC : List Char → List Char → List (List Char)
  | [], acc => [acc.reverse]
  | ':' :: ':' :: rest, acc => acc.reverse :: splitDC rest []
  | c :: cs, acc => splitDC cs (c :: acc)

/-- Split on `','`: Rust's `str::split(',')` as used for rule tags. -/
def splitComma : List Char → List Char → List (List Char)
  | [], acc => [acc.reverse]
  | ',' :: cs, acc => acc.reverse :: splitComma cs []
  | c :: cs, acc => splitComma cs (c :: acc)

/-- Does `pat` occur at the head of `l`? -/
def leadsWith : List Char → List Char → Bool
  | [], _ => true
  | _ :: _, [] => false
  | a :: as, b :: bs => a == b && leadsWith as bs

/-- Does `pat` occur at the head of some suffix of the first argument? -/
def containsAux (pat : List Char) : List Char → Bool
  | [] => leadsWith pat []
  | c :: cs => leadsWith pat (c :: cs) || containsAux pat cs

/-- Rust's `str::contains` with a string needle: substring containment.
For valid UTF-8 the byte-level search of the standard library coincides
with this character-level one, UTF-8 being self-synchronising. -/
def strContains (hay pat : String) : Bool :=
  containsAux pat.toList hay.toList

/-- Shannon entropy in bits of a byte string, from `src/lib.rs`: zero on
empty input, otherwise `-Σ p_b·log₂ p_b` over the observed byte values
`b`, with `p_b` the relative frequency of `b`. -/
noncomputable def shannon_entropy (bs : List Nat) : ℝ :=
  if bs = [] then 0 else
    - ∑ b ∈ bs.toFinset,
        ((bs.count b : ℝ) / bs.length) * Real.logb 2 ((bs.count b : ℝ) / bs.length)

/-- A detection rule, from `src/rules.rs`.  The compiled regex is carried
as its matching function on one line of text. -/
structure Rule where
  name : String
  regex : String → Bool
  pattern : String
  tags : List String
  confidence : ℚ

/-- One reported potential secret, from `src/main.rs`.  `tags` is a set,
mirroring the `HashSet` the scanners build it in. -/
structure Finding where
  path : String
  line : Nat
  snippet : String
  matched_rules : List String
  tags : Finset String
  confidence : ℚ
deriving DecidableEq

/-- Per-key accumulator of the aggregation maps of `scan_file` and
`scan_git_history`: matched rule names in match order, the union of their
tags, and their confidences. -/
structure Agg where
  names : List String
  tagset : Finset String
  confs : List ℚ
deriving DecidableEq

/-- Aggregation key: `(1-based line number, trimmed line text)`. -/
abbrev AggKey := Nat × String

/-- The aggregation map, as an insertion-ordered association list. -/
abbrev AggMap := List (AggKey × Agg)

def emptyAgg : Agg := ⟨[], ∅, []⟩

/-- The per-match mutation `for t in &rule.tags { entry.1.insert(t) }`. -/
def insertTags (s : Finset String) (ts : List String) : Finset String :=
  ts.foldl (fun a t => insert t a) s

/-- Record one rule match in an accumulator: push the name, union the
tags, push the confidence. -/
def addRule (e : Agg) (r : Rule) : Agg :=
  ⟨e.names ++ [r.name], insertTags e.tagset r.tags, e.confs ++ [r.confidence]⟩

/-- Models `map.entry(key).or_insert(empty)` followed by the three mutations. -/
def insertMatch : AggMap → AggKey → Rule → AggMap
  | [], k, r => [(k, addRule emptyAgg r)]
  | (k', e) :: m, k, r =>
    if k' = k then (k', addRule e r) :: m else (k', e) :: insertMatch m k r

/-- The inner rule loop of `scan_file` for the line with 0-based index
`i`: every matching rule is recorded under key `(i+1, trimmed line)`. -/
def scanLineInto (m : AggMap) (i : Nat) (line : String) (patterns : List Rule) : AggMap :=
  patterns.foldl
    (fun m r => if r.regex line then insertMatch m (i + 1, strTrim line) r else m) m

/-- The outer `for (i, line) in content.lines().enumerate()` loop of
`scan_file`, starting at index `i`. -/
def scanLinesFrom (patterns : List Rule) : Nat → List String → AggMap → AggMap
  | _, [], m => m
  | i, l :: ls, m => scanLinesFrom patterns (i + 1) ls (scanLineInto m i l patterns)

/-- Combined confidence `1 - Π(1 - cᵢ)`, written as the source's running
product `prod *= 1.0 - c` followed by `1.0 - prod`. -/
def combinedConf (cs : List ℚ) : ℚ :=
  1 - cs.foldl (fun p c => p * (1 - c)) 1

/-- Emission of one aggregated entry as a `Finding`. -/
def mkFinding (path : String) (ke : AggKey × Agg) : Finding :=
  ⟨path, ke.1.1, ke.1.2, ke.2.names, ke.2.tagset, combinedConf ke.2.confs⟩

/-- The function `scan_file` from `src/main.rs`.  `content?` is the result of
`fs::read_to_string`: `none` (unreadable or non-text) yields no
findings. -/
def scan_file (path : String) (patterns : List Rule) (content? : Option String) :
    List Finding :=
  match content? with
  | none => []
  | some content => (scanLinesFrom patterns 0 (linesOf content) []).map (mkFinding path)

/-- The function `should_ignore` from `src/main.rs`: true iff some ignore entry occurs
in the path text as a substring. -/
def should_ignore (path : String) (ignores : List String) : Bool :=
  ignores.any (fun ig => strContains path ig)

/-- One rule-definition line of `parse_rules` (`src/rules.rs`).  `compile`
is the regex compiler (`Regex::new`), `parseF` the float parser
(`str::parse::<f64>`); a blank or `#` comment line, a line with fewer than
two `::` fields, and a line whose pattern fails to compile each contribute
nothing. -/
def parseRuleLine (compile : String → Option (String → Bool))
    (parseF : String → Option ℚ) (line : String) : List Rule :=
  let l := strTrim line
  if l.toList.isEmpty || l.toList.head? == some '#' then []
  else
    let parts : List String := (splitDC l.toList []).map (fun cs => ⟨cs⟩)
    if parts.length ≥ 2 then
      let name := strTrim (parts.getD 0 ⟨[]⟩)
      let pat := strTrim (parts.getD 1 ⟨[]⟩)
      let tags :=
        if parts.length ≥ 3 then
          ((splitComma (parts.getD 2 ⟨[]⟩).toList []).map (fun t => strTrim ⟨t⟩)).filter
            (fun t => !t.toList.isEmpty)
        else []
      let conf :=
        if parts.length ≥ 4 then (parseF (strTrim (parts.getD 3 ⟨[]⟩))).getD (1/2)
        else (1/2 : ℚ)
      match compile pat with
      | some rx => [{ name := name, regex := rx, pattern := pat, tags := tags,
                      confidence := conf }]
      | none => []
    else []

/-- The function `parse_rules` from `src/rules.rs`: the per-line results in line
order. -/
def parse_rules (compile : String → Option (String → Bool))
    (parseF : String → Option ℚ) (s : String) : List Rule :=
  (linesOf s).flatMap (parseRuleLine compile parseF)

/-- The function `load_rules_from_file` from `src/rules.rs`: `content?` is the result
of `fs::read_to_string`; an unreadable file yields no rules. -/
def load_rules_from_file (compile : String → Option (String → Bool))
    (parseF : String → Option ℚ) (content? : Option String) : List Rule :=
  match content? with
  | none => []
  | some s => parse_rules compile parseF s

open Classical in
/-- The per-rule line loop of the git blob scanner
(`for (i, line) in content.lines().enumerate()` inside
`for rule in patterns`): a match is recorded only when the raw line's own
entropy reaches the threshold. -/
noncomputable def scanRuleLines (r : Rule) (θ : ℝ) : Nat → List String → AggMap → AggMap
  | _, [], m => m
  | i, l :: ls, m =>
    scanRuleLines r θ (i + 1) ls
      (if r.regex l then
        (if shannon_entropy (strBytes l) ≥ θ then insertMatch m (i + 1, strTrim l) r else m)
      else m)

/-- The whole per-blob aggregation map of `scan_git_history`. -/
noncomputable def scanBlobMap (patterns : List Rule) (θ : ℝ) (content : String) : AggMap :=
  patterns.foldl (fun m r => scanRuleLines r θ 0 (linesOf content) m) []

/-- The findings one blob contributes for one commit: the aggregated
entries, addressed `git:<commit-id>:<entry-name>`. -/
noncomputable def scanBlobFindings (cid nm : String) (patterns : List Rule) (θ : ℝ)
    (content : String) : List Finding :=
  (scanBlobMap patterns θ content).map (mkFinding ("git:" ++ cid ++ ":" ++ nm))

/-- A git object as reachable from a tree entry: a blob with its decoded
text (`none` when the bytes are not UTF-8 and the blob is skipped), a
subtree with its entries, or an object of any other kind.  An entry's name
is `none` when `entry.name()` yields nothing and the entry is skipped. -/
inductive GitObj where
  | blob : Option String → GitObj
  | tree : List (Option String × GitObj) → GitObj
  | other : GitObj

/-- One commit of the revwalk: its id and the entries of its root tree. -/
structure Commit where
  id : String
  tree : List (Option String × GitObj)

/-- The `Some(ObjectType::Tree) => stack.push(t)` arm, folded over the
entries of the popped tree: named subtrees are pushed in entry order. -/
def pushTrees (st : List (List (Option String × GitObj)))
    (e : Option String × GitObj) : List (List (Option String × GitObj)) :=
  match e with
  | (some _, GitObj.tree ts) => ts :: st
  | _ => st

/-- Termination measure for the explicit work stack: twice the total size
of the stacked entry lists plus the stack depth. -/
noncomputable def stackW (st : List (List (Option String × GitObj))) : Nat :=
  2 * (st.map sizeOf).sum + st.length

/-- The `Some(ObjectType::Blob)` arm of the entry match in
`scan_git_history`: a named blob is scanned unless its name is ignored or
its bytes are not UTF-8; any other entry yields nothing here. -/
noncomputable def entryFindings (cid : String) (patterns : List Rule)
    (ignores : List String) (θ : ℝ) (e : Option String × GitObj) : List Finding :=
  match e with
  | (some nm, GitObj.blob c?) =>
    if should_ignore nm ignores then []
    else
      match c? with
      | some content => scanBlobFindings cid nm patterns θ content
      | none => []
  | _ => []

open Classical in
/-- The `while let Some(tree) = stack.pop()` loop of `scan_git_history`
for one commit `cid`: each named, non-ignored UTF-8 blob of the popped
tree is scanned, and named subtrees are pushed for later processing. -/
noncomputable def walkStack (cid : String) (patterns : List Rule) (ignores : List String)
    (θ : ℝ) : List (List (Option String × GitObj)) → List Finding
  | [] => []
  | es :: rest =>
    (es.flatMap (entryFindings cid patterns ignores θ)) ++
    walkStack cid patterns ignores θ (es.foldl pushTrees rest)
termination_by st => stackW st
decreasing_by
  have hpush : ∀ (rest' : List (List (Option String × GitObj)))
      (e : Option String × GitObj),
      stackW (pushTrees rest' e) + 1 ≤ stackW rest' + 2 * sizeOf e := by
    intro rest' e
    obtain ⟨nm, o⟩ := e
    cases o with
    | tree ts =>
      cases nm with
      | none => simp [pushTrees, stackW]; omega
      | some s =>
        have h1 : 0 < sizeOf s := by cases s; simp
        simp [pushTrees, stackW]
        omega
    | blob b =>
      have h : 1 ≤ sizeOf nm := by cases nm <;> simp
      simp [pushTrees, stackW]
      omega
    | other =>
      have h : 1 ≤ sizeOf nm := by cases nm <;> simp
      simp [pushTrees, stackW]
      omega
  have key : ∀ (es' : List (Option String × GitObj))
      (rest' : List (List (Option String × GitObj))),
      stackW (es'.foldl pushTrees rest') + es'.length ≤ stackW rest' + 2 * sizeOf es' := by
    intro es'
    induction es' with
    | nil => intro rest'; simp [stackW]
    | cons e es' ih =>
      intro rest'
      have h1 := hpush rest' e
      have h2 := ih (pushTrees rest' e)
      simp only [List.foldl_cons, List.length_cons]
      have h3 : sizeOf (e :: es') = 1 + sizeOf e + sizeOf es' := by simp
      omega
  have h := key es rest
  simp only [stackW, List.map_cons, List.sum_cons, List.length_cons] at h ⊢
  omega

/-- The function `scan_git_history` from `src/main.rs`, over the commits the revwalk
yields from HEAD: each commit's root tree is walked independently and the
per-commit findings are concatenated. -/
noncomputable def scan_git_history (commits : List Commit) (patterns : List Rule)
    (ignores : List String) (θ : ℝ) : List Finding :=
  commits.flatMap (fun c => walkStack c.id patterns ignores θ [c.tree])

/-- Keep a finding under the minimum-confidence filter:
`f.confidence < min_confidence.unwrap_or(0.0)` drops it. -/
def keepMinConf (mc : Option ℚ) (f : Finding) : Prop :=
  ¬ f.confidence < mc.getD 0

/-- Keep a finding under the exclude-tags filter: any tag in the set drops
it. -/
def keepExclude (ex : Option (List String)) (f : Finding) : Prop :=
  match ex with
  | none => True
  | some xs => ¬ ∃ t ∈ f.tags, t ∈ xs

/-- Keep a finding under the include-tags filter: when the set is
configured, some tag must be in it. -/
def keepInclude (inc : Option (List String)) (f : Finding) : Prop :=
  match inc with
  | none => True
  | some xs => ∃ t ∈ f.tags, t ∈ xs

/-- Keep a finding under the snippet-entropy filter:
`shannon_entropy(&f.snippet) >= entropy_threshold`, on the aggregated
trimmed snippet. -/
def keepEntropy (θ : ℝ) (f : Finding) : Prop :=
  shannon_entropy (strBytes f.snippet) ≥ θ

open Classical in
/-- Models `Vec::retain`: keep exactly the elements satisfying the predicate, in
order. -/
noncomputable def retainP (p : Finding → Prop) : List Finding → List Finding
  | [] => []
  | f :: fs => if p f then f :: retainP p fs else retainP p fs

/-- The post-scan filter pipeline of `main` (`src/main.rs`): one `retain`
with the confidence and tag checks short-circuited as in the source, then
one `retain` with the snippet-entropy check. -/
noncomputable def postFilter (mc : Option ℚ) (ex inc : Option (List String)) (θ : ℝ)
    (fs : List Finding) : List Finding :=
  retainP (keepEntropy θ)
    (retainP (fun f => keepMinConf mc f ∧ keepExclude ex f ∧ keepInclude inc f) fs)

/-- Names for the four post-scan filters, to state reorderings. -/
inductive PostFilterKind where
  | minC
  | excl
  | incl
  | entr
deriving DecidableEq

/-- The keep-predicate of each named filter. -/
def keepOf (mc : Option ℚ) (ex inc : Option (List String)) (θ : ℝ) :
    PostFilterKind → Finding → Prop
  | .minC => keepMinConf mc
  | .excl => keepExclude ex
  | .incl => keepInclude inc
  | .entr => keepEntropy θ

/-- Apply a sequence of the named filters left to right, each as one
`retain` pass. -/
noncomputable def applyFilters (mc : Option ℚ) (ex inc : Option (List String)) (θ : ℝ)
    (ks : List PostFilterKind) (fs : List Finding) : List Finding :=
  ks.foldl (fun l k => retainP (keepOf mc ex inc θ k) l) fs

/-- A concrete regex-compiler instance for evaluating the model: a pattern
without metacharacters compiles to its literal substring matcher, and a
pattern containing `'('` (as the unclosed group `"("` of the tests) fails
to compile.  Agrees with `Regex::new` on every pattern used in concrete
instances below. -/
def compileLit (p : String) : Option (String → Bool) :=
  if p.toList.contains '(' then none else some (fun l => strContains l p)

/-- Is every character a decimal digit? -/
def allDigits (cs : List Char) : Bool :=
  cs.all (fun c => '0' ≤ c && c ≤ '9')

/-- Numeric value of a digit string. -/
def natOfDigits (cs : List Char) : Nat :=
  cs.foldl (fun a c => a * 10 + (c.toNat - 48)) 0

/-- A concrete float-parser instance for evaluating the model: Rust's
`str::parse::<f64>` on plain decimal numerals `Sign? Digit* (. Digit*)?`
with at least one digit, exact because the concrete numerals used below
are representable. -/
def parseDecimal (s : String) : Option ℚ :=
  let cs := s.toList
  let signed : ℚ × List Char :=
    match cs with
    | '-' :: rest => (-1, rest)
    | '+' :: rest => (1, rest)
    | _ => (1, cs)
  let intPart := signed.2.takeWhile (fun c => c != '.')
  let rest := signed.2.dropWhile (fun c => c != '.')
  let fracPart :=
    match rest with
    | [] => ([] : List Char)
    | _ :: fs => fs
  if allDigits intPart && allDigits fracPart && !(intPart ++ fracPart).isEmpty then
    some (signed.1 * ((natOfDigits intPart : ℚ) +
      (natOfDigits fracPart : ℚ) / (10 : ℚ) ^ fracPart.length))
  else none

/-- Lookup in an aggregation map. -/
def lookupA : AggMap → AggKey → Option Agg
  | [], _ => none
  | (k', e) :: m, k => if k' = k then some e else lookupA m k

/-- The rules whose pattern matches a given raw line, in rule order. -/
def matchersFile (patterns : List Rule) (l : String) : List Rule :=
  patterns.filter (fun r => r.regex l)

open Classical in
/-- The rules contributing to a given line of a git blob: all matchers when
the raw line's entropy reaches the threshold, none otherwise. -/
noncomputable def matchersBlob (patterns : List Rule) (θ : ℝ) (l : String) : List Rule :=
  if shannon_entropy (strBytes l) ≥ θ then matchersFile patterns l else []

/-- The accumulator a list of matching rules produces. -/
def aggOf (rs : List Rule) : Agg :=
  rs.foldl addRule emptyAgg

/-- Union of the tag sets of a list of rules, in match order. -/
def tagsUnion (rs : List Rule) : Finset String :=
  rs.foldl (fun s r => s ∪ r.tags.toFinset) ∅

/-- The second `::`-field of a rule line after trimming: the pattern text
handed to the regex compiler. -/
def patternOf (line : String) : String :=
  strTrim (((splitDC (strTrim line).toList []).map
    (fun cs => (⟨cs⟩ : String))).getD 1 ⟨[]⟩)

/-- A concrete rule instance: literal pattern `"x"`, one tag, confidence
`0.5`. -/
def ruleA : Rule :=
  ⟨"R1", fun l => strContains l "x", "x", ["t1"], 1/2⟩

/-- A concrete rule instance: literal pattern `"a"`, one tag, confidence
`0.75`. -/
def ruleB : Rule :=
  ⟨"R2", fun l => strContains l "a", "a", ["t2"], 3/4⟩

/-- A concrete one-entry git tree: the blob `k.txt` with content `"ab"`. -/
def treeG : List (Option String × GitObj) :=
  [(some "k.txt", GitObj.blob (some "ab"))]

lemma lookupA_insertMatch_self (m : AggMap) (k : AggKey) (r : Rule) :
    lookupA (insertMatch m k r) k = some (addRule ((lookupA m k).getD emptyAgg) r) := by
  induction m with
  | nil => simp [insertMatch, lookupA]
  | cons p m ih =>
    obtain ⟨k', e⟩ := p
    by_cases h : k' = k
    · subst h
      simp [insertMatch, lookupA]
    · simp [insertMatch, lookupA, h, ih]

lemma lookupA_insertMatch_ne (m : AggMap) (k : AggKey) (r : Rule) (k' : AggKey)
    (h : k' ≠ k) : lookupA (insertMatch m k r) k' = lookupA m k' := by
  induction m with
  | nil => simp [insertMatch, lookupA, Ne.symm h]
  | cons p m ih =>
    obtain ⟨k'', e⟩ := p
    by_cases h2 : k'' = k
    · subst h2
      simp [insertMatch, lookupA, Ne.symm h]
    · by_cases h3 : k'' = k'
      · subst h3
        simp [insertMatch, lookupA, h2]
      · simp [insertMatch, lookupA, h2, h3, ih]

lemma keys_insertMatch (m : AggMap) (k : AggKey) (r : Rule) :
    (insertMatch m k r).map Prod.fst =
      if k ∈ m.map Prod.fst then m.map Prod.fst else m.map Prod.fst ++ [k] := by
  induction m with
  | nil => simp [insertMatch]
  | cons p m ih =>
    obtain ⟨k', e⟩ := p
    by_cases h : k' = k
    · subst h
      simp [insertMatch]
    · simp only [insertMatch, h, if_false, List.map_cons, List.mem_cons, ih, Ne.symm h,
        false_or]
      by_cases h2 : k ∈ m.map Prod.fst <;> simp [h2, Ne.symm h]

lemma lookupA_eq_some_of_mem (m : AggMap) (k : AggKey) (e : Agg)
    (hn : (m.map Prod.fst).Nodup) (h : (k, e) ∈ m) : lookupA m k = some e := by
  induction m with
  | nil => simp at h
  | cons p m ih =>
    obtain ⟨k', e'⟩ := p
    rw [List.map_cons] at hn
    have hn1 := (List.nodup_cons.1 hn).1
    have hn2 := (List.nodup_cons.1 hn).2
    rcases List.mem_cons.1 h with h1 | h1
    · injection h1 with h2 h3
      simp [lookupA, h2.symm, h3]
    · have hk : k' ≠ k := by
        intro he
        apply hn1
        rw [he]
        exact List.mem_map.2 ⟨(k, e), h1, rfl⟩
      simp [lookupA, hk, ih hn2 h1]

lemma mem_of_lookupA_eq_some (m : AggMap) (k : AggKey) (e : Agg)
    (h : lookupA m k = some e) : (k, e) ∈ m := by
  induction m with
  | nil => simp [lookupA] at h
  | cons p m ih =>
    obtain ⟨k', e'⟩ := p
    by_cases h2 : k' = k
    · subst h2
      simp [lookupA] at h
      simp [h]
    · simp [lookupA, h2] at h
      exact List.mem_cons_of_mem _ (ih h)

lemma aggOf_fold (rs : List Rule) (e : Agg) :
    rs.foldl addRule e =
      ⟨e.names ++ rs.map Rule.name,
       rs.foldl (fun s r => insertTags s r.tags) e.tagset,
       e.confs ++ rs.map Rule.confidence⟩ := by
  induction rs generalizing e with
  | nil => simp
  | cons r rs ih =>
    simp only [List.foldl_cons, List.map_cons]
    rw [ih]
    simp [addRule]

lemma insertTags_eq_union (s : Finset String) (ts : List String) :
    insertTags s ts = s ∪ ts.toFinset := by
  induction ts generalizing s with
  | nil => simp [insertTags]
  | cons t ts ih =>
    simp only [insertTags, List.foldl_cons] at *
    rw [ih (insert t s)]
    ext x
    simp [or_assoc, or_comm, or_left_comm]

lemma matchersFile_cons (r : Rule) (ps : List Rule) (l : String) :
    matchersFile (r :: ps) l =
      if r.regex l then r :: matchersFile ps l else matchersFile ps l := by
  by_cases hr : r.regex l = true <;> simp [matchersFile, List.filter_cons, hr]

lemma scanLineInto_cons (m : AggMap) (i : Nat) (l : String) (r : Rule) (ps : List Rule) :
    scanLineInto m i l (r :: ps) =
      scanLineInto (if r.regex l then insertMatch m (i + 1, strTrim l) r else m) i l ps := by
  simp [scanLineInto]

lemma scanLineInto_lookup_some (ps : List Rule) (m : AggMap) (i : Nat) (l : String)
    (e : Agg) (hm : lookupA m (i + 1, strTrim l) = some e) :
    lookupA (scanLineInto m i l ps) (i + 1, strTrim l) =
      some ((matchersFile ps l).foldl addRule e) := by
  induction ps generalizing m e with
  | nil => simp [scanLineInto, matchersFile, hm]
  | cons r ps ih =>
    rw [scanLineInto_cons, matchersFile_cons]
    by_cases hr : r.regex l = true
    · simp only [hr, if_true]
      have h1 : lookupA (insertMatch m (i + 1, strTrim l) r) (i + 1, strTrim l) =
          some (addRule e r) := by
        rw [lookupA_insertMatch_self, hm]
        rfl
      rw [ih _ _ h1]
      simp
    · simp only [Bool.not_eq_true] at hr
      simp only [hr, Bool.false_eq_true, if_false]
      exact ih _ _ hm

lemma scanLineInto_lookup_none (ps : List Rule) (m : AggMap) (i : Nat) (l : String)
    (hm : lookupA m (i + 1, strTrim l) = none)
    (hne : matchersFile ps l ≠ []) :
    lookupA (scanLineInto m i l ps) (i + 1, strTrim l) =
      some (aggOf (matchersFile ps l)) := by
  induction ps generalizing m with
  | nil => simp [matchersFile] at hne
  | cons r ps ih =>
    rw [scanLineInto_cons, matchersFile_cons]
    by_cases hr : r.regex l = true
    · simp only [hr, if_true]
      have h1 : lookupA (insertMatch m (i + 1, strTrim l) r) (i + 1, strTrim l) =
          some (addRule emptyAgg r) := by
        rw [lookupA_insertMatch_self, hm]
        rfl
      rw [scanLineInto_lookup_some ps _ i l _ h1]
      simp [aggOf]
    · simp only [Bool.not_eq_true] at hr
      rw [matchersFile_cons] at hne
      simp only [hr, Bool.false_eq_true, if_false] at hne ⊢
      exact ih _ hm hne

lemma scanLineInto_lookup_ne (ps : List Rule) (m : AggMap) (i : Nat) (l : String)
    (k : AggKey) (h : k ≠ (i + 1, strTrim l)) :
    lookupA (scanLineInto m i l ps) k = lookupA m k := by
  induction ps generalizing m with
  | nil => simp [scanLineInto]
  | cons r ps ih =>
    rw [scanLineInto_cons]
    by_cases hr : r.regex l = true
    · simp only [hr, if_true]
      rw [ih, lookupA_insertMatch_ne _ _ _ _ h]
    · simp only [Bool.not_eq_true] at hr
      simp only [hr, Bool.false_eq_true, if_false]
      exact ih m

lemma scanLineInto_no_match (ps : List Rule) (m : AggMap) (i : Nat) (l : String)
    (hm : matchersFile ps l = []) : scanLineInto m i l ps = m := by
  induction ps generalizing m with
  | nil => simp [scanLineInto]
  | cons r ps ih =>
    rw [matchersFile_cons] at hm
    by_cases hr : r.regex l = true
    · simp [hr] at hm
    · simp only [Bool.not_eq_true] at hr
      simp only [hr, Bool.false_eq_true, if_false] at hm
      rw [scanLineInto_cons]
      simp only [hr, Bool.false_eq_true, if_false]
      exact ih m hm

lemma scanLineInto_keys (ps : List Rule) (m : AggMap) (i : Nat) (l : String)
    (k : AggKey) (h : k ∈ (scanLineInto m i l ps).map Prod.fst) :
    k ∈ m.map Prod.fst ∨ k = (i + 1, strTrim l) := by
  induction ps generalizing m with
  | nil =>
    simp only [scanLineInto, List.foldl_nil] at h
    exact Or.inl h
  | cons r ps ih =>
    rw [scanLineInto_cons] at h
    by_cases hr : r.regex l = true
    · simp only [hr, if_true] at h
      rcases ih _ h with h1 | h1
      · rw [keys_insertMatch] at h1
        by_cases h2 : (i + 1, strTrim l) ∈ m.map Prod.fst
        · rw [if_pos h2] at h1
          exact Or.inl h1
        · rw [if_neg h2] at h1
          rcases List.mem_append.1 h1 with h3 | h3
          · exact Or.inl h3
          · exact Or.inr (by simpa using h3)
      · exact Or.inr h1
    · simp only [Bool.not_eq_true] at hr
      simp only [hr, Bool.false_eq_true, if_false] at h
      exact ih _ h

lemma scanLineInto_nodup (ps : List Rule) (m : AggMap) (i : Nat) (l : String)
    (hn : (m.map Prod.fst).Nodup) : ((scanLineInto m i l ps).map Prod.fst).Nodup := by
  induction ps generalizing m with
  | nil => simpa [scanLineInto] using hn
  | cons r ps ih =>
    rw [scanLineInto_cons]
    by_cases hr : r.regex l = true
    · simp only [hr, if_true]
      apply ih
      rw [keys_insertMatch]
      by_cases h2 : (i + 1, strTrim l) ∈ m.map Prod.fst
      · simpa [h2] using hn
      · simp only [h2, if_false]
        refine List.Nodup.append hn (List.nodup_singleton _) ?_
        intro x hx hx2
        rw [List.mem_singleton.1 hx2] at hx
        exact h2 hx
    · simp only [Bool.not_eq_true] at hr
      simp only [hr, Bool.false_eq_true, if_false]
      exact ih m hn

lemma scanLinesFrom_cons (ps : List Rule) (n : Nat) (l : String) (ls : List String)
    (m : AggMap) :
    scanLinesFrom ps n (l :: ls) m = scanLinesFrom ps (n + 1) ls (scanLineInto m n l ps) :=
  rfl

lemma scanLinesFrom_lookup_low (ps : List Rule) (ls : List String) :
    ∀ (n : Nat) (m : AggMap) (k : AggKey), k.1 ≤ n →
      lookupA (scanLinesFrom ps n ls m) k = lookupA m k := by
  induction ls with
  | nil => intro n m k _; rfl
  | cons l ls ih =>
    intro n m k h
    rw [scanLinesFrom_cons, ih (n + 1) _ k (Nat.le_succ_of_le h)]
    apply scanLineInto_lookup_ne
    intro he
    rw [he] at h
    omega

lemma scanLinesFrom_lookup_main (ps : List Rule) (ls : List String) :
    ∀ (n : Nat) (m : AggMap) (i : Nat) (hi : i < ls.length),
      (∀ s, lookupA m (n + i + 1, s) = none) →
      matchersFile ps (ls.get ⟨i, hi⟩) ≠ [] →
      lookupA (scanLinesFrom ps n ls m) (n + i + 1, strTrim (ls.get ⟨i, hi⟩)) =
        some (aggOf (matchersFile ps (ls.get ⟨i, hi⟩))) := by
  induction ls with
  | nil => intro n m i hi; exact absurd hi (by simp)
  | cons l ls ih =>
    intro n m i hi hm hne
    rw [scanLinesFrom_cons]
    cases i with
    | zero =>
      rw [scanLinesFrom_lookup_low ps ls (n + 1) _ _ (by simp)]
      exact scanLineInto_lookup_none ps m n l (hm _) hne
    | succ j =>
      have hj : j < ls.length := by simpa using hi
      have harith : n + (j + 1) + 1 = (n + 1) + j + 1 := by omega
      have hm2 : ∀ s, lookupA (scanLineInto m n l ps) ((n + 1) + j + 1, s) = none := by
        intro s
        rw [scanLineInto_lookup_ne]
        · rw [show (n + 1) + j + 1 = n + (j + 1) + 1 by omega]
          exact hm s
        · intro he
          have := congrArg Prod.fst he
          simp at this
          omega
      have hget : (l :: ls).get ⟨j + 1, hi⟩ = ls.get ⟨j, hj⟩ := rfl
      rw [hget] at hne ⊢
      rw [harith]
      exact ih (n + 1) _ j hj hm2 hne

lemma scanLinesFrom_keys (ps : List Rule) (ls : List String) :
    ∀ (n : Nat) (m : AggMap) (k : AggKey),
      k ∈ (scanLinesFrom ps n ls m).map Prod.fst →
      k ∈ m.map Prod.fst ∨
        ∃ i, ∃ hi : i < ls.length,
          k = (n + i + 1, strTrim (ls.get ⟨i, hi⟩)) ∧
          matchersFile ps (ls.get ⟨i, hi⟩) ≠ [] := by
  induction ls with
  | nil => intro n m k h; exact Or.inl h
  | cons l ls ih =>
    intro n m k h
    rw [scanLinesFrom_cons] at h
    rcases ih (n + 1) _ k h with h1 | h1
    · by_cases h2 : matchersFile ps l = []
      · rw [scanLineInto_no_match ps m n l h2] at h1
        exact Or.inl h1
      · rcases scanLineInto_keys ps m n l k h1 with h3 | h3
        · exact Or.inl h3
        · refine Or.inr ⟨0, by simp, ?_, h2⟩
          simpa using h3
    · obtain ⟨i, hi, hk, hne⟩ := h1
      refine Or.inr ⟨i + 1, by simpa using hi, ?_, hne⟩
      rw [hk]
      congr 1
      omega

lemma scanLinesFrom_nodup (ps : List Rule) (ls : List String) :
    ∀ (n : Nat) (m : AggMap), (m.map Prod.fst).Nodup →
      ((scanLinesFrom ps n ls m).map Prod.fst).Nodup := by
  induction ls with
  | nil => intro n m hn; exact hn
  | cons l ls ih =>
    intro n m hn
    rw [scanLinesFrom_cons]
    exact ih (n + 1) _ (scanLineInto_nodup ps m n l hn)

/-- Full characterisation of the file scanner: `f` is a finding of
`scan_file` exactly when some line has a non-empty matcher list and `f` is
the emission of that line's aggregate. -/
lemma scan_file_mem_iff (path : String) (ps : List Rule) (content : String) (f : Finding) :
    f ∈ scan_file path ps (some content) ↔
      ∃ i, ∃ hi : i < (linesOf content).length,
        matchersFile ps ((linesOf content).get ⟨i, hi⟩) ≠ [] ∧
        f = mkFinding path
          ((i + 1, strTrim ((linesOf content).get ⟨i, hi⟩)),
           aggOf (matchersFile ps ((linesOf content).get ⟨i, hi⟩))) := by
  constructor
  · intro h
    simp only [scan_file, List.mem_map] at h
    obtain ⟨⟨k, e⟩, hke, hf⟩ := h
    have hkey : k ∈ (scanLinesFrom ps 0 (linesOf content) []).map Prod.fst :=
      List.mem_map.2 ⟨(k, e), hke, rfl⟩
    rcases scanLinesFrom_keys ps (linesOf content) 0 [] k hkey with h1 | h1
    · simp at h1
    obtain ⟨i, hi, hk, hne⟩ := h1
    have hlook : lookupA (scanLinesFrom ps 0 (linesOf content) []) k = some e :=
      lookupA_eq_some_of_mem _ _ _
        (scanLinesFrom_nodup ps (linesOf content) 0 [] (by simp)) hke
    rw [hk] at hlook
    rw [scanLinesFrom_lookup_main ps (linesOf content) 0 [] i hi
      (fun s => rfl) hne] at hlook
    refine ⟨i, hi, hne, ?_⟩
    rw [← hf, hk]
    have he : e = aggOf (matchersFile ps ((linesOf content).get ⟨i, hi⟩)) := by
      injection hlook.symm
    rw [he]
    norm_num
  · rintro ⟨i, hi, hne, hf⟩
    have hlook := scanLinesFrom_lookup_main ps (linesOf content) 0 [] i hi (fun s => rfl) hne
    have hmem := mem_of_lookupA_eq_some _ _ _ hlook
    simp only [scan_file]
    rw [hf]
    have : (0 + i + 1 : Nat) = i + 1 := by omega
    rw [← this]
    exact List.mem_map.2 ⟨_, hmem, rfl⟩

/-- A rule contributes at a line of a git blob iff it matches and the raw
line's entropy reaches the threshold. -/
def linePass (r : Rule) (θ : ℝ) (l : String) : Prop :=
  r.regex l = true ∧ shannon_entropy (strBytes l) ≥ θ

lemma matchersBlob_cons_pass (r : Rule) (ps : List Rule) (θ : ℝ) (l : String)
    (h : linePass r θ l) : matchersBlob (r :: ps) θ l = r :: matchersBlob ps θ l := by
  unfold matchersBlob
  rw [if_pos h.2, if_pos h.2, matchersFile_cons, if_pos h.1]

lemma matchersBlob_cons_fail (r : Rule) (ps : List Rule) (θ : ℝ) (l : String)
    (h : ¬ linePass r θ l) : matchersBlob (r :: ps) θ l = matchersBlob ps θ l := by
  unfold matchersBlob
  by_cases hent : shannon_entropy (strBytes l) ≥ θ
  · rw [if_pos hent, if_pos hent, matchersFile_cons]
    have hr : ¬ r.regex l = true := fun hr => h ⟨hr, hent⟩
    simp only [Bool.not_eq_true] at hr
    rw [hr]
    simp
  · rw [if_neg hent, if_neg hent]

lemma scanRuleLines_cons (r : Rule) (θ : ℝ) (n : Nat) (l : String) (ls : List String)
    (m : AggMap) :
    scanRuleLines r θ n (l :: ls) m =
      scanRuleLines r θ (n + 1) ls
        (if r.regex l then
          (if shannon_entropy (strBytes l) ≥ θ then insertMatch m (n + 1, strTrim l) r
           else m)
         else m) :=
  rfl

lemma scanRuleLines_lookup_low (r : Rule) (θ : ℝ) (ls : List String) :
    ∀ (n : Nat) (m : AggMap) (k : AggKey), k.1 ≤ n →
      lookupA (scanRuleLines r θ n ls m) k = lookupA m k := by
  induction ls with
  | nil => intro n m k _; rfl
  | cons l ls ih =>
    intro n m k h
    rw [scanRuleLines_cons, ih (n + 1) _ k (Nat.le_succ_of_le h)]
    have hk : k ≠ (n + 1, strTrim l) := by
      intro he
      rw [he] at h
      omega
    by_cases hr : r.regex l = true
    · rw [if_pos hr]
      by_cases hent : shannon_entropy (strBytes l) ≥ θ
      · rw [if_pos hent, lookupA_insertMatch_ne _ _ _ _ hk]
      · rw [if_neg hent]
    · simp only [Bool.not_eq_true] at hr
      rw [hr]
      simp

open Classical in
lemma scanRuleLines_lookup_at (r : Rule) (θ : ℝ) (ls : List String) :
    ∀ (n : Nat) (m : AggMap) (i : Nat) (hi : i < ls.length),
      lookupA (scanRuleLines r θ n ls m) (n + i + 1, strTrim (ls.get ⟨i, hi⟩)) =
        if linePass r θ (ls.get ⟨i, hi⟩) then
          some (addRule ((lookupA m (n + i + 1, strTrim (ls.get ⟨i, hi⟩))).getD emptyAgg) r)
        else lookupA m (n + i + 1, strTrim (ls.get ⟨i, hi⟩)) := by
  induction ls with
  | nil => intro n m i hi; exact absurd hi (by simp)
  | cons l ls ih =>
    intro n m i hi
    rw [scanRuleLines_cons]
    cases i with
    | zero =>
      have hg : (l :: ls).get ⟨0, hi⟩ = l := rfl
      rw [scanRuleLines_lookup_low r θ ls (n + 1) _ _ (by simp)]
      simp only [hg, Nat.add_zero]
      by_cases hr : r.regex l = true
      · rw [if_pos hr]
        by_cases hent : shannon_entropy (strBytes l) ≥ θ
        · rw [if_pos hent, if_pos (show linePass r θ l from ⟨hr, hent⟩),
            lookupA_insertMatch_self]
        · rw [if_neg hent, if_neg (show ¬ linePass r θ l from fun hp => hent hp.2)]
      · have hr' : r.regex l = false := by simpa using hr
        rw [hr']
        simp only [Bool.false_eq_true, if_false]
        rw [if_neg (show ¬ linePass r θ l from
          fun hp => absurd hp.1 (by simp [hr']))]
    | succ j =>
      have hj : j < ls.length := by simpa using hi
      have hget : (l :: ls).get ⟨j + 1, hi⟩ = ls.get ⟨j, hj⟩ := rfl
      have harith : n + (j + 1) + 1 = (n + 1) + j + 1 := by omega
      rw [hget, harith, ih (n + 1) _ j hj]
      have hk : ((n + 1) + j + 1, strTrim (ls.get ⟨j, hj⟩)) ≠ (n + 1, strTrim l) := by
        intro he
        have := congrArg Prod.fst he
        simp at this
        omega
      have hstep : lookupA
          (if r.regex l then
            (if shannon_entropy (strBytes l) ≥ θ then insertMatch m (n + 1, strTrim l) r
             else m)
           else m) ((n + 1) + j + 1, strTrim (ls.get ⟨j, hj⟩)) =
          lookupA m ((n + 1) + j + 1, strTrim (ls.get ⟨j, hj⟩)) := by
        by_cases hr : r.regex l = true
        · rw [if_pos hr]
          by_cases hent : shannon_entropy (strBytes l) ≥ θ
          · rw [if_pos hent, lookupA_insertMatch_ne _ _ _ _ hk]
          · rw [if_neg hent]
        · have hr' : r.regex l = false := by simpa using hr
          rw [hr']
          simp
      rw [hstep]

lemma scanRuleLines_keys (r : Rule) (θ : ℝ) (ls : List String) :
    ∀ (n : Nat) (m : AggMap) (k : AggKey),
      k ∈ (scanRuleLines r θ n ls m).map Prod.fst →
      k ∈ m.map Prod.fst ∨
        ∃ i, ∃ hi : i < ls.length,
          k = (n + i + 1, strTrim (ls.get ⟨i, hi⟩)) ∧ linePass r θ (ls.get ⟨i, hi⟩) := by
  induction ls with
  | nil => intro n m k h; exact Or.inl h
  | cons l ls ih =>
    intro n m k h
    rw [scanRuleLines_cons] at h
    rcases ih (n + 1) _ k h with h1 | h1
    · by_cases hr : r.regex l = true
      · by_cases hent : shannon_entropy (strBytes l) ≥ θ
        · rw [if_pos hr, if_pos hent, keys_insertMatch] at h1
          by_cases h2 : (n + 1, strTrim l) ∈ m.map Prod.fst
          · rw [if_pos h2] at h1
            exact Or.inl h1
          · rw [if_neg h2] at h1
            rcases List.mem_append.1 h1 with h3 | h3
            · exact Or.inl h3
            · refine Or.inr ⟨0, by simp, ?_, hr, hent⟩
              simpa using h3
        · rw [if_pos hr, if_neg hent] at h1
          exact Or.inl h1
      · simp only [Bool.not_eq_true] at hr
        rw [hr] at h1
        simp only [Bool.false_eq_true, if_false] at h1
        exact Or.inl h1
    · obtain ⟨i, hi, hk, hp⟩ := h1
      refine Or.inr ⟨i + 1, by simpa using hi, ?_, hp⟩
      rw [hk]
      congr 1
      omega

lemma scanRuleLines_nodup (r : Rule) (θ : ℝ) (ls : List String) :
    ∀ (n : Nat) (m : AggMap), (m.map Prod.fst).Nodup →
      ((scanRuleLines r θ n ls m).map Prod.fst).Nodup := by
  induction ls with
  | nil => intro n m hn; exact hn
  | cons l ls ih =>
    intro n m hn
    rw [scanRuleLines_cons]
    apply ih (n + 1)
    by_cases hr : r.regex l = true
    · rw [if_pos hr]
      by_cases hent : shannon_entropy (strBytes l) ≥ θ
      · rw [if_pos hent, keys_insertMatch]
        by_cases h2 : (n + 1, strTrim l) ∈ m.map Prod.fst
        · simpa [h2] using hn
        · simp only [h2, if_false]
          refine List.Nodup.append hn (List.nodup_singleton _) ?_
          intro x hx hx2
          rw [List.mem_singleton.1 hx2] at hx
          exact h2 hx
      · rw [if_neg hent]
        exact hn
    · simp only [Bool.not_eq_true] at hr
      rw [hr]
      simpa using hn

lemma scanBlobMap_cons (r : Rule) (ps : List Rule) (θ : ℝ) (content : String) :
    ∀ m, (r :: ps).foldl (fun m r => scanRuleLines r θ 0 (linesOf content) m) m =
      ps.foldl (fun m r => scanRuleLines r θ 0 (linesOf content) m)
        (scanRuleLines r θ 0 (linesOf content) m) := by
  intro m
  simp

lemma scanBlobFold_lookup_some (ps : List Rule) (θ : ℝ) (content : String) :
    ∀ (m : AggMap) (e : Agg) (i : Nat) (hi : i < (linesOf content).length),
      lookupA m (i + 1, strTrim ((linesOf content).get ⟨i, hi⟩)) = some e →
      lookupA (ps.foldl (fun m r => scanRuleLines r θ 0 (linesOf content) m) m)
          (i + 1, strTrim ((linesOf content).get ⟨i, hi⟩)) =
        some ((matchersBlob ps θ ((linesOf content).get ⟨i, hi⟩)).foldl addRule e) := by
  induction ps with
  | nil =>
    intro m e i hi hm
    simp only [List.foldl_nil]
    rw [hm]
    unfold matchersBlob
    by_cases hent : shannon_entropy (strBytes ((linesOf content).get ⟨i, hi⟩)) ≥ θ
    · rw [if_pos hent]
      simp [matchersFile]
    · rw [if_neg hent]
      simp
  | cons r ps ih =>
    intro m e i hi hm
    rw [List.foldl_cons]
    have hat := scanRuleLines_lookup_at r θ (linesOf content) 0 m i hi
    rw [show (0 + i + 1 : Nat) = i + 1 by omega] at hat
    by_cases hp : linePass r θ ((linesOf content).get ⟨i, hi⟩)
    · rw [if_pos hp, hm] at hat
      rw [ih _ _ i hi hat, matchersBlob_cons_pass r ps θ _ hp]
      simp
    · rw [if_neg hp, hm] at hat
      rw [ih _ _ i hi hat, matchersBlob_cons_fail r ps θ _ hp]

lemma scanBlobFold_lookup_none (ps : List Rule) (θ : ℝ) (content : String) :
    ∀ (m : AggMap) (i : Nat) (hi : i < (linesOf content).length),
      lookupA m (i + 1, strTrim ((linesOf content).get ⟨i, hi⟩)) = none →
      matchersBlob ps θ ((linesOf content).get ⟨i, hi⟩) ≠ [] →
      lookupA (ps.foldl (fun m r => scanRuleLines r θ 0 (linesOf content) m) m)
          (i + 1, strTrim ((linesOf content).get ⟨i, hi⟩)) =
        some (aggOf (matchersBlob ps θ ((linesOf content).get ⟨i, hi⟩))) := by
  induction ps with
  | nil =>
    intro m i hi hm hne
    exact absurd (by simp [matchersBlob, matchersFile]) hne
  | cons r ps ih =>
    intro m i hi hm hne
    rw [List.foldl_cons]
    have hat := scanRuleLines_lookup_at r θ (linesOf content) 0 m i hi
    rw [show (0 + i + 1 : Nat) = i + 1 by omega] at hat
    by_cases hp : linePass r θ ((linesOf content).get ⟨i, hi⟩)
    · rw [if_pos hp, hm] at hat
      rw [scanBlobFold_lookup_some ps θ content _ _ i hi hat,
        matchersBlob_cons_pass r ps θ _ hp]
      simp [aggOf]
    · rw [if_neg hp, hm] at hat
      rw [matchersBlob_cons_fail r ps θ _ hp] at hne ⊢
      exact ih _ i hi hat hne

lemma scanBlobMap_keys (ps : List Rule) (θ : ℝ) (content : String) :
    ∀ (m : AggMap) (k : AggKey),
      k ∈ ((ps.foldl (fun m r => scanRuleLines r θ 0 (linesOf content) m) m).map Prod.fst) →
      k ∈ m.map Prod.fst ∨
        ∃ i, ∃ hi : i < (linesOf content).length,
          k = (i + 1, strTrim ((linesOf content).get ⟨i, hi⟩)) ∧
          matchersBlob ps θ ((linesOf content).get ⟨i, hi⟩) ≠ [] := by
  induction ps with
  | nil => intro m k h; exact Or.inl h
  | cons r ps ih =>
    intro m k h
    rw [List.foldl_cons] at h
    rcases ih _ k h with h1 | h1
    · rcases scanRuleLines_keys r θ (linesOf content) 0 m k h1 with h2 | h2
      · exact Or.inl h2
      · obtain ⟨i, hi, hk, hp⟩ := h2
        refine Or.inr ⟨i, hi, by rw [hk]; congr 1; omega, ?_⟩
        rw [matchersBlob_cons_pass r ps θ _ hp]
        simp
    · obtain ⟨i, hi, hk, hne⟩ := h1
      refine Or.inr ⟨i, hi, hk, ?_⟩
      by_cases hp : linePass r θ ((linesOf content).get ⟨i, hi⟩)
      · rw [matchersBlob_cons_pass r ps θ _ hp]
        simp
      · rw [matchersBlob_cons_fail r ps θ _ hp]
        exact hne

lemma scanBlobMap_nodup (ps : List Rule) (θ : ℝ) (content : String) :
    ∀ (m : AggMap), (m.map Prod.fst).Nodup →
      (((ps.foldl (fun m r => scanRuleLines r θ 0 (linesOf content) m) m)).map
        Prod.fst).Nodup := by
  induction ps with
  | nil => intro m hn; exact hn
  | cons r ps ih =>
    intro m hn
    rw [List.foldl_cons]
    exact ih _ (scanRuleLines_nodup r θ (linesOf content) 0 m hn)

/-- Full characterisation of the per-blob git scanner: `f` is a finding
for one blob exactly when some line passes the per-line entropy gate with
a non-empty matcher list, and `f` is the emission of that line's
aggregate. -/
lemma scanBlobFindings_mem_iff (cid nm : String) (ps : List Rule) (θ : ℝ)
    (content : String) (f : Finding) :
    f ∈ scanBlobFindings cid nm ps θ content ↔
      ∃ i, ∃ hi : i < (linesOf content).length,
        matchersBlob ps θ ((linesOf content).get ⟨i, hi⟩) ≠ [] ∧
        f = mkFinding ("git:" ++ cid ++ ":" ++ nm)
          ((i + 1, strTrim ((linesOf content).get ⟨i, hi⟩)),
           aggOf (matchersBlob ps θ ((linesOf content).get ⟨i, hi⟩))) := by
  constructor
  · intro h
    simp only [scanBlobFindings, scanBlobMap, List.mem_map] at h
    obtain ⟨⟨k, e⟩, hke, hf⟩ := h
    have hkey : k ∈ ((List.foldl (fun m r => scanRuleLines r θ 0 (linesOf content) m)
        [] ps).map Prod.fst) :=
      List.mem_map.2 ⟨(k, e), hke, rfl⟩
    rcases scanBlobMap_keys ps θ content [] k hkey with h1 | h1
    · simp at h1
    obtain ⟨i, hi, hk, hne⟩ := h1
    have hlook : lookupA (List.foldl (fun m r => scanRuleLines r θ 0 (linesOf content) m)
        [] ps) k = some e :=
      lookupA_eq_some_of_mem _ _ _ (scanBlobMap_nodup ps θ content [] (by simp)) hke
    rw [hk] at hlook
    rw [scanBlobFold_lookup_none ps θ content [] i hi (by rfl) hne] at hlook
    refine ⟨i, hi, hne, ?_⟩
    rw [← hf, hk]
    have he : e = aggOf (matchersBlob ps θ ((linesOf content).get ⟨i, hi⟩)) := by
      injection hlook.symm
    rw [he]
  · rintro ⟨i, hi, hne, hf⟩
    have hlook := scanBlobFold_lookup_none ps θ content [] i hi (by rfl) hne
    have hmem := mem_of_lookupA_eq_some _ _ _ hlook
    simp only [scanBlobFindings, scanBlobMap]
    rw [hf]
    exact List.mem_map.2 ⟨_, hmem, rfl⟩

lemma aggOf_names (rs : List Rule) : (aggOf rs).names = rs.map Rule.name := by
  simp [aggOf, aggOf_fold, emptyAgg]

lemma aggOf_confs (rs : List Rule) : (aggOf rs).confs = rs.map Rule.confidence := by
  simp [aggOf, aggOf_fold, emptyAgg]

lemma aggOf_tagset (rs : List Rule) : (aggOf rs).tagset = tagsUnion rs := by
  simp only [aggOf, aggOf_fold, emptyAgg, tagsUnion]
  induction rs with
  | nil => simp
  | cons r rs ih =>
    simp only [List.foldl_cons]
    have h : ∀ (s₀ : Finset String),
        rs.foldl (fun s r => insertTags s r.tags) s₀ =
          rs.foldl (fun s r => s ∪ r.tags.toFinset) s₀ := by
      intro s₀
      induction rs generalizing s₀ with
      | nil => simp
      | cons r' rs' ih' => simp [insertTags_eq_union, ih']
    rw [h, insertTags_eq_union]

lemma shannon_entropy_nil : shannon_entropy [] = 0 := by
  simp [shannon_entropy]

lemma shannon_entropy_replicate (n : ℕ) (b : ℕ) :
    shannon_entropy (List.replicate n b) = 0 := by
  cases n with
  | zero => simp [shannon_entropy]
  | succ n =>
    unfold shannon_entropy
    rw [if_neg (by simp)]
    rw [List.toFinset_replicate_of_ne_zero (by omega)]
    have hne : ((n + 1 : ℕ) : ℝ) ≠ 0 := Nat.cast_ne_zero.2 (by omega)
    simp only [Finset.sum_singleton, List.count_replicate_self, List.length_replicate,
      div_self hne, Real.logb_one, mul_zero, Finset.sum_const, smul_zero, neg_zero]

lemma shannon_entropy_nodup (bs : List Nat) (h : bs.Nodup) :
    shannon_entropy bs = Real.logb 2 bs.length := by
  by_cases hb : bs = []
  · simp [hb, shannon_entropy]
  · unfold shannon_entropy
    rw [if_neg hb]
    have hlen : (bs.length : ℝ) ≠ 0 := by
      simpa using fun h0 => hb (List.length_eq_zero.1 h0)
    have hsum : ∀ b ∈ bs.toFinset,
        ((bs.count b : ℝ) / bs.length) * Real.logb 2 ((bs.count b : ℝ) / bs.length) =
          (1 / bs.length) * Real.logb 2 (1 / bs.length) := by
      intro b hbm
      rw [List.count_eq_one_of_mem h (List.mem_toFinset.1 hbm)]
      norm_num
    rw [Finset.sum_congr rfl hsum, Finset.sum_const, List.card_toFinset,
      List.Nodup.dedup h]
    have h1 : (1 : ℝ) / bs.length = ((bs.length : ℝ))⁻¹ := one_div _
    rw [h1, Real.logb_inv]
    rw [nsmul_eq_mul]
    field_simp

lemma combinedConf_foldl (cs : List ℚ) (a : ℚ) :
    cs.foldl (fun p c => p * (1 - c)) a = a * (cs.map (fun c => 1 - c)).prod := by
  induction cs generalizing a with
  | nil => simp
  | cons c cs ih =>
    simp only [List.foldl_cons, List.map_cons, List.prod_cons, ih]
    ring

lemma combinedConf_eq_prod (cs : List ℚ) :
    combinedConf cs = 1 - (cs.map (fun c => 1 - c)).prod := by
  rw [combinedConf, combinedConf_foldl]
  ring

lemma combinedConf_single (c : ℚ) : combinedConf [c] = c := by
  simp [combinedConf]

lemma combinedConf_perm (cs cs' : List ℚ) (h : cs.Perm cs') :
    combinedConf cs = combinedConf cs' := by
  rw [combinedConf_eq_prod, combinedConf_eq_prod, (h.map _).prod_eq]

open Classical in
lemma retainP_cons (p : Finding → Prop) (f : Finding) (fs : List Finding) :
    retainP p (f :: fs) = if p f then f :: retainP p fs else retainP p fs :=
  rfl

lemma mem_retainP (p : Finding → Prop) (l : List Finding) (f : Finding) :
    f ∈ retainP p l ↔ f ∈ l ∧ p f := by
  induction l with
  | nil => simp [retainP]
  | cons g l ih =>
    by_cases hg : p g
    · rw [retainP_cons, if_pos hg]
      simp only [List.mem_cons, ih]
      constructor
      · rintro (rfl | ⟨h1, h2⟩)
        exacts [⟨Or.inl rfl, hg⟩, ⟨Or.inr h1, h2⟩]
      · rintro ⟨rfl | h1, h2⟩
        exacts [Or.inl rfl, Or.inr ⟨h1, h2⟩]
    · rw [retainP_cons, if_neg hg]
      simp only [List.mem_cons, ih]
      constructor
      · rintro ⟨h1, h2⟩
        exact ⟨Or.inr h1, h2⟩
      · rintro ⟨rfl | h1, h2⟩
        exacts [absurd h2 hg, ⟨h1, h2⟩]

lemma retainP_retainP (p q : Finding → Prop) (l : List Finding) :
    retainP p (retainP q l) = retainP (fun f => p f ∧ q f) l := by
  induction l with
  | nil => rfl
  | cons g l ih =>
    by_cases hq : q g
    · by_cases hp : p g
      · rw [retainP_cons, if_pos hq, retainP_cons, if_pos hp, retainP_cons,
          if_pos ⟨hp, hq⟩, ih]
      · rw [retainP_cons, if_pos hq, retainP_cons, if_neg hp, retainP_cons,
          if_neg (fun h => hp h.1), ih]
    · rw [retainP_cons, if_neg hq, retainP_cons, if_neg (fun h => hq h.2), ih]

lemma retainP_congr (p q : Finding → Prop) (l : List Finding)
    (h : ∀ f, p f ↔ q f) : retainP p l = retainP q l := by
  induction l with
  | nil => rfl
  | cons g l ih =>
    by_cases hp : p g
    · rw [retainP_cons, if_pos hp, retainP_cons, if_pos ((h g).1 hp), ih]
    · rw [retainP_cons, if_neg hp, retainP_cons, if_neg (fun hq => hp ((h g).2 hq)), ih]

lemma retainP_of_forall (p : Finding → Prop) (l : List Finding)
    (h : ∀ f, p f) : retainP p l = l := by
  induction l with
  | nil => rfl
  | cons g l ih => rw [retainP_cons, if_pos (h g), ih]

lemma applyFilters_cons (mc : Option ℚ) (ex inc : Option (List String)) (θ : ℝ)
    (k : PostFilterKind) (ks : List PostFilterKind) (fs : List Finding) :
    applyFilters mc ex inc θ (k :: ks) fs =
      applyFilters mc ex inc θ ks (retainP (keepOf mc ex inc θ k) fs) :=
  rfl

lemma applyFilters_eq_retainP (mc : Option ℚ) (ex inc : Option (List String)) (θ : ℝ)
    (ks : List PostFilterKind) (fs : List Finding) :
    applyFilters mc ex inc θ ks fs =
      retainP (fun f => ∀ k ∈ ks, keepOf mc ex inc θ k f) fs := by
  induction ks generalizing fs with
  | nil => exact (retainP_of_forall _ _ (by simp)).symm
  | cons k ks ih =>
    rw [applyFilters_cons, ih, retainP_retainP]
    apply retainP_congr
    intro f
    simp only [List.forall_mem_cons]
    tauto

lemma postFilter_eq_applyFilters (mc : Option ℚ) (ex inc : Option (List String)) (θ : ℝ)
    (fs : List Finding) :
    postFilter mc ex inc θ fs =
      applyFilters mc ex inc θ
        [PostFilterKind.minC, PostFilterKind.excl, PostFilterKind.incl,
         PostFilterKind.entr] fs := by
  rw [applyFilters_eq_retainP, postFilter, retainP_retainP]
  apply retainP_congr
  intro f
  simp only [List.forall_mem_cons, keepOf]
  constructor
  · rintro ⟨h4, h1, h2, h3⟩
    refine ⟨h1, h2, h3, h4, ?_⟩
    intro k hk
    exact absurd hk (List.not_mem_nil k)
  · rintro ⟨h1, h2, h3, h4, -⟩
    exact ⟨h4, h1, h2, h3⟩

lemma mem_postFilter (mc : Option ℚ) (ex inc : Option (List String)) (θ : ℝ)
    (fs : List Finding) (f : Finding) :
    f ∈ postFilter mc ex inc θ fs ↔
      f ∈ fs ∧ keepMinConf mc f ∧ keepExclude ex f ∧ keepInclude inc f ∧
        keepEntropy θ f := by
  rw [postFilter, mem_retainP, mem_retainP]
  tauto

lemma leadsWith_iff (p l : List Char) :
    leadsWith p l = true ↔ ∃ t, l = p ++ t := by
  induction p generalizing l with
  | nil => simp [leadsWith]
  | cons a as ih =>
    cases l with
    | nil => simp [leadsWith]
    | cons b bs =>
      simp only [leadsWith, Bool.and_eq_true, beq_iff_eq, ih, List.cons_append,
        List.cons.injEq]
      constructor
      · rintro ⟨rfl, t, rfl⟩
        exact ⟨t, rfl, rfl⟩
      · rintro ⟨t, rfl, rfl⟩
        exact ⟨rfl, t, rfl⟩

lemma containsAux_iff (p l : List Char) :
    containsAux p l = true ↔ ∃ pre post, l = pre ++ p ++ post := by
  induction l with
  | nil =>
    simp only [containsAux, leadsWith_iff]
    constructor
    · rintro ⟨t, ht⟩
      exact ⟨[], t, ht⟩
    · rintro ⟨pre, post, h⟩
      rcases List.append_eq_nil.1 (List.append_eq_nil.1 h.symm).1 with ⟨h1, h2⟩
      exact ⟨post, by simp [h2, (List.append_eq_nil.1 h.symm).2]⟩
  | cons c cs ih =>
    simp only [containsAux, Bool.or_eq_true, leadsWith_iff, ih]
    constructor
    · rintro (⟨t, ht⟩ | ⟨pre, post, h⟩)
      · exact ⟨[], t, by simp [ht]⟩
      · exact ⟨c :: pre, post, by simp [h]⟩
    · rintro ⟨pre, post, h⟩
      cases pre with
      | nil => exact Or.inl ⟨post, by simpa using h⟩
      | cons d pre =>
        simp only [List.cons_append, List.cons.injEq] at h
        exact Or.inr ⟨pre, post, h.2⟩

lemma strContains_iff (hay pat : String) :
    strContains hay pat = true ↔
      ∃ pre post, hay.toList = pre ++ pat.toList ++ post :=
  containsAux_iff pat.toList hay.toList

lemma should_ignore_iff (path : String) (igs : List String) :
    should_ignore path igs = true ↔
      ∃ ig ∈ igs, ∃ pre post, path.toList = pre ++ ig.toList ++ post := by
  simp only [should_ignore, List.any_eq_true, strContains_iff]

lemma walkStack_empty (cid : String) (ps : List Rule) (ig : List String) (θ : ℝ) :
    walkStack cid ps ig θ [] = [] := by
  rw [walkStack]

lemma walkStack_pop (cid : String) (ps : List Rule) (ig : List String) (θ : ℝ)
    (es : List (Option String × GitObj)) (rest : List (List (Option String × GitObj))) :
    walkStack cid ps ig θ (es :: rest) =
      (es.flatMap (entryFindings cid ps ig θ)) ++
        walkStack cid ps ig θ (es.foldl pushTrees rest) := by
  rw [walkStack]

lemma entryFindings_mem (cid : String) (ps : List Rule) (ig : List String) (θ : ℝ)
    (e : Option String × GitObj) (f : Finding) (h : f ∈ entryFindings cid ps ig θ e) :
    ∃ nm content, should_ignore nm ig = false ∧
      f ∈ scanBlobFindings cid nm ps θ content := by
  obtain ⟨nm?, o⟩ := e
  cases nm? with
  | none => simp [entryFindings] at h
  | some nm =>
    cases o with
    | blob c? =>
      cases c? with
      | none => simp [entryFindings] at h
      | some content =>
        by_cases hig : should_ignore nm ig = true
        · simp [entryFindings, hig] at h
        · have hig' : should_ignore nm ig = false := by simpa using hig
          simp only [entryFindings, hig', Bool.false_eq_true, if_false] at h
          exact ⟨nm, content, hig', h⟩
    | tree ts => simp [entryFindings] at h
    | other => simp [entryFindings] at h

lemma walkStack_mem (cid : String) (ps : List Rule) (ig : List String) (θ : ℝ)
    (st : List (List (Option String × GitObj))) (f : Finding)
    (h : f ∈ walkStack cid ps ig θ st) :
    ∃ nm content, should_ignore nm ig = false ∧
      f ∈ scanBlobFindings cid nm ps θ content := by
  induction st using walkStack.induct cid ps ig θ with
  | case1 =>
    rw [walkStack_empty] at h
    simp at h
  | case2 es rest ih =>
    rw [walkStack_pop] at h
    rcases List.mem_append.1 h with h1 | h1
    · obtain ⟨e, _, he⟩ := List.mem_flatMap.1 h1
      exact entryFindings_mem cid ps ig θ e f he
    · exact ih h1

lemma entryFindings_length (cid cid' : String) (ps : List Rule) (ig : List String)
    (θ : ℝ) (e : Option String × GitObj) :
    (entryFindings cid ps ig θ e).length = (entryFindings cid' ps ig θ e).length := by
  obtain ⟨nm?, o⟩ := e
  cases nm? with
  | none => simp [entryFindings]
  | some nm =>
    cases o with
    | blob c? =>
      cases c? with
      | none => simp [entryFindings]
      | some content =>
        by_cases hig : should_ignore nm ig = true
        · simp [entryFindings, hig]
        · have hig' : should_ignore nm ig = false := by simpa using hig
          simp [entryFindings, hig', scanBlobFindings]
    | tree ts => simp [entryFindings]
    | other => simp [entryFindings]

lemma walkStack_length (cid cid' : String) (ps : List Rule) (ig : List String) (θ : ℝ)
    (st : List (List (Option String × GitObj))) :
    (walkStack cid ps ig θ st).length = (walkStack cid' ps ig θ st).length := by
  induction st using walkStack.induct cid ps ig θ with
  | case1 => rw [walkStack_empty, walkStack_empty]
  | case2 es rest ih =>
    rw [walkStack_pop, walkStack_pop, List.length_append, List.length_append, ih]
    congr 1
    rw [List.length_flatMap, List.length_flatMap]
    congr 1
    exact List.map_congr_left (fun e _ => entryFindings_length cid cid' ps ig θ e)

lemma scan_git_history_cons (c : Commit) (commits : List Commit) (ps : List Rule)
    (ig : List String) (θ : ℝ) :
    scan_git_history (c :: commits) ps ig θ =
      walkStack c.id ps ig θ [c.tree] ++ scan_git_history commits ps ig θ := by
  simp [scan_git_history]

lemma mem_scan_git_history_of_mem (commits : List Commit) (ps : List Rule)
    (ig : List String) (θ : ℝ) (c : Commit) (hc : c ∈ commits) (f : Finding)
    (hf : f ∈ walkStack c.id ps ig θ [c.tree]) :
    f ∈ scan_git_history commits ps ig θ :=
  List.mem_flatMap.2 ⟨c, hc, hf⟩

lemma scan_git_history_length (commits : List Commit) (ps : List Rule)
    (ig : List String) (θ : ℝ) (T : List (Option String × GitObj)) (cid₀ : String)
    (h : ∀ c ∈ commits, c.tree = T) :
    (scan_git_history commits ps ig θ).length =
      commits.length * (walkStack cid₀ ps ig θ [T]).length := by
  induction commits with
  | nil => simp [scan_git_history]
  | cons c cs ih =>
    rw [scan_git_history_cons, List.length_append]
    rw [h c (List.mem_cons_self c cs), walkStack_length c.id cid₀]
    rw [ih (fun c' hc' => h c' (List.mem_cons_of_mem c hc'))]
    simp [List.length_cons]
    ring

lemma parseRuleLine_compile_none (compile : String → Option (String → Bool))
    (parseF : String → Option ℚ) (line : String)
    (h : compile (patternOf line) = none) :
    parseRuleLine compile parseF line = [] := by
  simp only [patternOf] at h
  simp only [parseRuleLine]
  split
  · rfl
  · split
    · rw [h]
    · rfl

lemma conf_disj (parseF : String → Option ℚ) (C : Prop) [Decidable C] (x : String) :
    (if C then (parseF x).getD (1/2) else (1/2 : ℚ)) = 1/2 ∨
      ∃ t, parseF t = some (if C then (parseF x).getD (1/2) else (1/2 : ℚ)) := by
  by_cases hC : C
  · rw [if_pos hC]
    rcases hp : parseF x with _ | q
    · left
      rfl
    · right
      refine ⟨x, ?_⟩
      rw [hp]
      rfl
  · left
    rw [if_neg hC]

lemma parse_rules_confidence (compile : String → Option (String → Bool))
    (parseF : String → Option ℚ) (s : String) (r : Rule)
    (h : r ∈ parse_rules compile parseF s) :
    r.confidence = 1 / 2 ∨ ∃ t, parseF t = some r.confidence := by
  simp only [parse_rules, List.mem_flatMap] at h
  obtain ⟨line, -, hr⟩ := h
  simp only [parseRuleLine] at hr
  split at hr
  · simp at hr
  · split at hr
    · split at hr
      · rw [List.mem_singleton] at hr
        subst hr
        exact conf_disj parseF _ _
      · simp at hr
    · simp at hr

lemma eval_scanAB :
    scan_file "p" [ruleA, ruleB] (some " xa \nb") =
      [⟨"p", 1, "xa", ["R1", "R2"], insert "t2" {"t1"}, combinedConf [1/2, 3/4]⟩] := by
  have h1 : linesOf " xa \nb" = [" xa ", "b"] := by decide
  have h2 : strTrim " xa " = "xa" := by decide
  have h3 : strContains " xa " "x" = true := by decide
  have h4 : strContains " xa " "a" = true := by decide
  have h5 : strContains "b" "x" = false := by decide
  have h6 : strContains "b" "a" = false := by decide
  simp [scan_file, h1, scanLinesFrom, scanLineInto, insertMatch, addRule, emptyAgg,
    insertTags, mkFinding, h2, h3, h4, h5, h6, ruleA, ruleB]

lemma ent_ab : shannon_entropy (strBytes "ab") = 1 := by
  rw [show strBytes "ab" = [97, 98] by decide]
  rw [shannon_entropy_nodup _ (by decide)]
  rw [show ([97, 98] : List Nat).length = 2 by decide]
  rw [show ((2 : ℕ) : ℝ) = 2 by norm_num]
  exact Real.logb_self_eq_one (by norm_num)

lemma ent_xa : shannon_entropy (strBytes "xa") = 1 := by
  rw [show strBytes "xa" = [120, 97] by decide]
  rw [shannon_entropy_nodup _ (by decide)]
  rw [show ([120, 97] : List Nat).length = 2 by decide]
  rw [show ((2 : ℕ) : ℝ) = 2 by norm_num]
  exact Real.logb_self_eq_one (by norm_num)

lemma ent_aa : shannon_entropy (strBytes "aa") = 0 := by
  rw [show strBytes "aa" = List.replicate 2 97 by decide]
  exact shannon_entropy_replicate 2 97

lemma eval_blob_ab (cid nm : String) :
    scanBlobFindings cid nm [ruleB] 1 "ab" =
      [⟨"git:" ++ cid ++ ":" ++ nm, 1, "ab", ["R2"], {"t2"}, combinedConf [3/4]⟩] := by
  have h1 : linesOf "ab" = ["ab"] := by decide
  have h2 : strContains "ab" "a" = true := by decide
  have h3 : strTrim "ab" = "ab" := by decide
  simp [scanBlobFindings, scanBlobMap, h1, scanRuleLines, ruleB, h2, h3, ent_ab,
    insertMatch, addRule, emptyAgg, insertTags, mkFinding]

lemma eval_blob_aaab (cid nm : String) :
    scanBlobFindings cid nm [ruleB] 1 "aa\nab" =
      [⟨"git:" ++ cid ++ ":" ++ nm, 2, "ab", ["R2"], {"t2"}, combinedConf [3/4]⟩] := by
  have h1 : linesOf "aa\nab" = ["aa", "ab"] := by decide
  have h2 : strContains "ab" "a" = true := by decide
  have h2' : strContains "aa" "a" = true := by decide
  have h3 : strTrim "ab" = "ab" := by decide
  have h3' : strTrim "aa" = "aa" := by decide
  have hent : ¬ shannon_entropy (strBytes "aa") ≥ 1 := by
    rw [ent_aa]
    norm_num
  simp [scanBlobFindings, scanBlobMap, h1, scanRuleLines, ruleB, h2, h2', h3, h3',
    ent_ab, hent, insertMatch, addRule, emptyAgg, insertTags, mkFinding]

lemma eval_walk_G (cid : String) :
    walkStack cid [ruleB] [] 1 [treeG] =
      [⟨"git:" ++ cid ++ ":" ++ "k.txt", 1, "ab", ["R2"], {"t2"}, combinedConf [3/4]⟩] := by
  rw [show ([treeG] : List (List (Option String × GitObj))) = treeG :: [] from rfl,
    walkStack_pop]
  have hig : should_ignore "k.txt" [] = false := by decide
  simp [treeG, entryFindings, hig, eval_blob_ab, pushTrees, walkStack_empty]

lemma eval_git_G :
    scan_git_history [⟨"c1", treeG⟩, ⟨"c2", treeG⟩, ⟨"c3", treeG⟩] [ruleB] [] 1 =
      [⟨"git:c1:k.txt", 1, "ab", ["R2"], {"t2"}, combinedConf [3/4]⟩,
       ⟨"git:c2:k.txt", 1, "ab", ["R2"], {"t2"}, combinedConf [3/4]⟩,
       ⟨"git:c3:k.txt", 1, "ab", ["R2"], {"t2"}, combinedConf [3/4]⟩] := by
  have s1 : ("git:" ++ "c1" ++ ":" ++ "k.txt" : String) = "git:c1:k.txt" := by decide
  have s2 : ("git:" ++ "c2" ++ ":" ++ "k.txt" : String) = "git:c2:k.txt" := by decide
  have s3 : ("git:" ++ "c3" ++ ":" ++ "k.txt" : String) = "git:c3:k.txt" := by decide
  simp [scan_git_history, eval_walk_G, s1, s2, s3]

lemma eval_parse_C5 :
    parse_rules compileLit parseDecimal "A::x::t::2.5" =
      [⟨"A", fun l => strContains l "x", "x", ["t"],
        (parseDecimal "2.5").getD (1/2)⟩] := by
  rfl

lemma eval_parse_C5_conf : parseDecimal "2.5" = some (5/2) := by
  have h0 : parseDecimal "2.5" =
      some ((1 : ℚ) * (((2 : ℕ) : ℚ) + ((5 : ℕ) : ℚ) / (10 : ℚ) ^ (1 : ℕ))) := rfl
  rw [h0]
  norm_num

lemma mkFinding_pairwise (path : String) (m : AggMap)
    (hn : (m.map Prod.fst).Nodup) :
    (m.map (mkFinding path)).Pairwise
      (fun f g => (f.line, f.snippet) ≠ (g.line, g.snippet)) := by
  rw [List.pairwise_map]
  have h2 : m.Pairwise (fun a b => a.1 ≠ b.1) := List.pairwise_map.1 hn
  refine h2.imp ?_
  intro a b hab he
  apply hab
  obtain ⟨⟨ka, sa⟩, ea⟩ := a
  obtain ⟨⟨kb, sb⟩, eb⟩ := b
  simpa [mkFinding] using he

/-- C6: `shannon_entropy` is exactly `0` on the empty byte string and on
any single repeated byte; on a byte string of `k` distinct bytes each
occurring once it equals `log₂ k`; and the monotonous text
`"aaaaaaaaaaaa"` has strictly smaller entropy than the mixed text
`"a4G$9kL2#xPq7Z!"`. -/
theorem C6_shannon_entropy_values :
    shannon_entropy [] = 0 ∧
    (∀ (n b : ℕ), shannon_entropy (List.replicate n b) = 0) ∧
    (∀ bs : List Nat, bs.Nodup → shannon_entropy bs = Real.logb 2 bs.length) ∧
    shannon_entropy (strBytes "aaaaaaaaaaaa") <
      shannon_entropy (strBytes "a4G$9kL2#xPq7Z!") := by
  refine ⟨shannon_entropy_nil, fun n b => shannon_entropy_replicate n b,
    fun bs h => shannon_entropy_nodup bs h, ?_⟩
  rw [show strBytes "aaaaaaaaaaaa" = List.replicate 12 97 from by decide,
    shannon_entropy_replicate]
  rw [shannon_entropy_nodup _ (by decide)]
  rw [show (strBytes "a4G$9kL2#xPq7Z!").length = 15 from by decide]
  exact Real.logb_pos (by norm_num) (by norm_num)

/-- Witness for C6: the distinct-bytes clause evaluated at the concrete
byte string `[0, 1, 2, 3]`. -/
theorem C6_witness :
    shannon_entropy [0, 1, 2, 3] = Real.logb 2 (([0, 1, 2, 3] : List Nat).length) :=
  C6_shannon_entropy_values.2.2.1 [0, 1, 2, 3] (by decide)

/-- C9: `should_ignore` is pure substring containment: it returns true iff
some ignore entry occurs in the path text as a substring; in particular it
accepts `/a/b/secret.txt` and rejects `/a/b/file.txt` against the ignore
set containing `secret`. -/
theorem C9_should_ignore_substring :
    (∀ (path : String) (igs : List String),
       should_ignore path igs = true ↔
         ∃ ig ∈ igs, ∃ pre post, path.toList = pre ++ ig.toList ++ post) ∧
    should_ignore "/a/b/secret.txt" ["secret"] = true ∧
    should_ignore "/a/b/file.txt" ["secret"] = false :=
  ⟨should_ignore_iff, by decide, by decide⟩

/-- Witness for C9: the substring characterisation applied to the concrete
accepted path. -/
theorem C9_witness :
    ∃ ig ∈ (["secret"] : List String), ∃ pre post,
      ("/a/b/secret.txt").toList = pre ++ ig.toList ++ post :=
  (C9_should_ignore_substring.1 _ _).1 C9_should_ignore_substring.2.1

/-- C7: a rule line whose pattern fails to compile contributes nothing,
and the rules loaded from the surrounding lines are exactly those loaded
had the bad line been absent. -/
theorem C7_invalid_regex_line_skipped (compile : String → Option (String → Bool))
    (parseF : String → Option ℚ) (s : String) (ls1 ls2 : List String) (bad : String)
    (hl : linesOf s = ls1 ++ bad :: ls2)
    (hc : compile (patternOf bad) = none) :
    parse_rules compile parseF s =
      ls1.flatMap (parseRuleLine compile parseF) ++
        ls2.flatMap (parseRuleLine compile parseF) := by
  rw [parse_rules, hl, List.flatMap_append, List.flatMap_cons,
    parseRuleLine_compile_none compile parseF bad hc]
  simp

/-- Witness for C7: a three-line rule file whose middle line has the
uncompilable pattern `"("` loads exactly the rules of the first and last
lines. -/
theorem C7_witness :
    parse_rules compileLit parseDecimal "A::x\nB::(\nC::y" =
      (["A::x"] : List String).flatMap (parseRuleLine compileLit parseDecimal) ++
        (["C::y"] : List String).flatMap (parseRuleLine compileLit parseDecimal) ∧
    (parse_rules compileLit parseDecimal "A::x\nB::(\nC::y").map Rule.name =
      ["A", "C"] :=
  ⟨C7_invalid_regex_line_skipped compileLit parseDecimal _ ["A::x"] ["C::y"] "B::("
    (by decide) (by rfl), by decide⟩

/-- Counterexample for C5 as frozen: `parse_rules` stores the parsed
4th field verbatim, so the line `A::x::t::2.5` produces an active rule
whose confidence `2.5` lies outside `[0, 1]`. -/
theorem C5_counterexample :
    ∃ r ∈ parse_rules compileLit parseDecimal "A::x::t::2.5",
      ¬ (0 ≤ r.confidence ∧ r.confidence ≤ 1) := by
  refine ⟨⟨"A", fun l => strContains l "x", "x", ["t"], (parseDecimal "2.5").getD (1/2)⟩,
    ?_, ?_⟩
  · rw [eval_parse_C5]
    exact List.mem_singleton.2 rfl
  · show ¬ (0 ≤ (parseDecimal "2.5").getD (1/2) ∧ (parseDecimal "2.5").getD (1/2) ≤ 1)
    rw [show ((parseDecimal "2.5").getD (1/2) : ℚ) = 5/2 from by
      rw [eval_parse_C5_conf]
      rfl]
    rintro ⟨-, h⟩
    norm_num at h

/-- C5 (amended): a rule's confidence is `0.5` by default or the value the
float parser returns for the 4th field, taken verbatim; hence every rule
of the active set has confidence in `[0, 1]` provided every successfully
parsed confidence literal lies in `[0, 1]`. -/
theorem C5_confidence_range (compile : String → Option (String → Bool))
    (parseF : String → Option ℚ) (s : String)
    (hp : ∀ t q, parseF t = some q → 0 ≤ q ∧ q ≤ 1) :
    ∀ r ∈ parse_rules compile parseF s, 0 ≤ r.confidence ∧ r.confidence ≤ 1 := by
  intro r hr
  rcases parse_rules_confidence compile parseF s r hr with h | ⟨t, ht⟩
  · rw [h]
    norm_num
  · exact hp t r.confidence ht

/-- Witness for C5 (amended): under a parser that accepts nothing, the
rule loaded from `A::x` carries the in-range default confidence `0.5`. -/
theorem C5_witness :
    0 ≤ (Rule.mk "A" (fun l => strContains l "x") "x" [] (1/2)).confidence ∧
      (Rule.mk "A" (fun l => strContains l "x") "x" [] (1/2)).confidence ≤ 1 := by
  refine C5_confidence_range compileLit (fun _ => none) "A::x" ?_ _ ?_
  · intro t q h
    simp at h
  · show _ ∈ parse_rules compileLit (fun _ => none) "A::x"
    rw [show parse_rules compileLit (fun _ => none) "A::x" =
      [⟨"A", fun l => strContains l "x", "x", [], 1/2⟩] from rfl]
    exact List.mem_singleton.2 rfl

/-- C1: every finding of `scan_file` (and of `scan_git_history`, through
its per-blob scanner) carries confidence `1 - Π(1-cᵢ)` over the
confidences of the rules contributing to its `(line, trimmed snippet)`
key; a single contributing confidence `c` combines to exactly `c`, and
combination is invariant under reordering of the contributing
confidences. -/
theorem C1_combined_confidence :
    (∀ (path : String) (ps : List Rule) (content : String) (f : Finding),
       f ∈ scan_file path ps (some content) →
       ∃ i, ∃ hi : i < (linesOf content).length,
         f.line = i + 1 ∧
         f.snippet = strTrim ((linesOf content).get ⟨i, hi⟩) ∧
         f.confidence =
           1 - (((matchersFile ps ((linesOf content).get ⟨i, hi⟩)).map
             Rule.confidence).map (fun c => 1 - c)).prod) ∧
    (∀ (commits : List Commit) (ps : List Rule) (ig : List String) (θ : ℝ) (f : Finding),
       f ∈ scan_git_history commits ps ig θ →
       ∃ content : String, ∃ i, ∃ hi : i < (linesOf content).length,
         f.line = i + 1 ∧
         f.confidence =
           1 - (((matchersBlob ps θ ((linesOf content).get ⟨i, hi⟩)).map
             Rule.confidence).map (fun c => 1 - c)).prod) ∧
    (∀ c : ℚ, combinedConf [c] = c) ∧
    (∀ cs cs' : List ℚ, cs.Perm cs' → combinedConf cs = combinedConf cs') := by
  refine ⟨?_, ?_, combinedConf_single, combinedConf_perm⟩
  · intro path ps content f hf
    obtain ⟨i, hi, hne, hf⟩ := (scan_file_mem_iff path ps content f).1 hf
    refine ⟨i, hi, ?_, ?_, ?_⟩
    · rw [hf]
      rfl
    · rw [hf]
      rfl
    · rw [hf]
      show combinedConf (aggOf (matchersFile ps ((linesOf content).get ⟨i, hi⟩))).confs = _
      rw [aggOf_confs, combinedConf_eq_prod]
  · intro commits ps ig θ f hf
    obtain ⟨c, -, hw⟩ := List.mem_flatMap.1 hf
    obtain ⟨nm, content, -, hb⟩ := walkStack_mem c.id ps ig θ _ f hw
    obtain ⟨i, hi, hne, hf'⟩ := (scanBlobFindings_mem_iff c.id nm ps θ content f).1 hb
    refine ⟨content, i, hi, ?_, ?_⟩
    · rw [hf']
      rfl
    · rw [hf']
      show combinedConf (aggOf (matchersBlob ps θ ((linesOf content).get ⟨i, hi⟩))).confs = _
      rw [aggOf_confs, combinedConf_eq_prod]

/-- Witness for C1: the file-scan clause applied to a concrete two-rule
scan, the git clause applied to a concrete one-commit history, and the
single-confidence and reordering clauses at concrete values. -/
theorem C1_witness :
    (∃ i, ∃ hi : i < (linesOf " xa \nb").length,
      (⟨"p", 1, "xa", ["R1", "R2"], insert "t2" {"t1"},
        combinedConf [1/2, 3/4]⟩ : Finding).line = i + 1 ∧
      (⟨"p", 1, "xa", ["R1", "R2"], insert "t2" {"t1"},
        combinedConf [1/2, 3/4]⟩ : Finding).snippet =
          strTrim ((linesOf " xa \nb").get ⟨i, hi⟩) ∧
      (⟨"p", 1, "xa", ["R1", "R2"], insert "t2" {"t1"},
        combinedConf [1/2, 3/4]⟩ : Finding).confidence =
        1 - (((matchersFile [ruleA, ruleB] ((linesOf " xa \nb").get ⟨i, hi⟩)).map
          Rule.confidence).map (fun c => 1 - c)).prod) ∧
    (∃ content : String, ∃ i, ∃ hi : i < (linesOf content).length,
      (⟨"git:c1:k.txt", 1, "ab", ["R2"], {"t2"},
        combinedConf [3/4]⟩ : Finding).line = i + 1 ∧
      (⟨"git:c1:k.txt", 1, "ab", ["R2"], {"t2"},
        combinedConf [3/4]⟩ : Finding).confidence =
        1 - (((matchersBlob [ruleB] 1 ((linesOf content).get ⟨i, hi⟩)).map
          Rule.confidence).map (fun c => 1 - c)).prod) ∧
    combinedConf [(1 : ℚ)/2] = 1/2 ∧
    combinedConf [(1 : ℚ)/2, 3/4] = combinedConf [3/4, 1/2] := by
  refine ⟨?_, ?_, C1_combined_confidence.2.2.1 (1/2),
    C1_combined_confidence.2.2.2 _ _ (List.Perm.swap (3/4) (1/2) [])⟩
  · exact C1_combined_confidence.1 "p" [ruleA, ruleB] " xa \nb" _
      (by rw [eval_scanAB]; exact List.mem_singleton.2 rfl)
  · exact C1_combined_confidence.2.1 [⟨"c1", treeG⟩, ⟨"c2", treeG⟩, ⟨"c3", treeG⟩]
      [ruleB] [] 1 _
      (by rw [eval_git_G]; exact List.mem_cons_self _ _)

/-- C2: within one scanned unit the findings of both scanners carry
pairwise distinct `(line, trimmed snippet)` keys, and two rules matching
the same key produce the one merged finding holding both rule names, the
union of both tag sets and the combined confidence — never two separate
findings. -/
theorem C2_one_finding_per_key :
    (∀ (path : String) (ps : List Rule) (content? : Option String),
       (scan_file path ps content?).Pairwise
         (fun f g => (f.line, f.snippet) ≠ (g.line, g.snippet))) ∧
    (∀ (cid nm : String) (ps : List Rule) (θ : ℝ) (content : String),
       (scanBlobFindings cid nm ps θ content).Pairwise
         (fun f g => (f.line, f.snippet) ≠ (g.line, g.snippet))) ∧
    (∀ (path : String) (r1 r2 : Rule) (l : String),
       linesOf l = [l] → r1.regex l = true → r2.regex l = true →
       scan_file path [r1, r2] (some l) =
         [⟨path, 1, strTrim l, [r1.name, r2.name],
           r1.tags.toFinset ∪ r2.tags.toFinset,
           combinedConf [r1.confidence, r2.confidence]⟩]) := by
  refine ⟨?_, ?_, ?_⟩
  · intro path ps content?
    cases content? with
    | none => exact List.Pairwise.nil
    | some content =>
      exact mkFinding_pairwise path _
        (scanLinesFrom_nodup ps (linesOf content) 0 [] (by simp))
  · intro cid nm ps θ content
    exact mkFinding_pairwise _ _ (scanBlobMap_nodup ps θ content [] (by simp))
  · intro path r1 r2 l hl h1 h2
    simp only [scan_file, hl]
    show (scanLineInto [] 0 l [r1, r2]).map (mkFinding path) = _
    simp [scanLineInto, h1, h2, insertMatch, addRule, emptyAgg, mkFinding,
      insertTags_eq_union]

/-- Witness for C2: the merge clause applied to two concrete rules both
matching the one-line file `xa`. -/
theorem C2_witness :
    scan_file "p" [ruleA, ruleB] (some "xa") =
      [⟨"p", 1, strTrim "xa", [ruleA.name, ruleB.name],
        ruleA.tags.toFinset ∪ ruleB.tags.toFinset,
        combinedConf [ruleA.confidence, ruleB.confidence]⟩] :=
  C2_one_finding_per_key.2.2 "p" ruleA ruleB "xa" (by decide) (by decide) (by decide)

/-- C10: every finding either scanner emits records at least one matched
rule: a finding is created only for a key some rule actually matched. -/
theorem C10_matched_rules_nonempty :
    (∀ (path : String) (ps : List Rule) (content? : Option String) (f : Finding),
       f ∈ scan_file path ps content? → f.matched_rules ≠ []) ∧
    (∀ (commits : List Commit) (ps : List Rule) (ig : List String) (θ : ℝ)
       (f : Finding), f ∈ scan_git_history commits ps ig θ →
       f.matched_rules ≠ []) := by
  constructor
  · intro path ps content? f hf
    cases content? with
    | none => simp [scan_file] at hf
    | some content =>
      obtain ⟨i, hi, hne, hf⟩ := (scan_file_mem_iff path ps content f).1 hf
      rw [hf]
      show (aggOf (matchersFile ps ((linesOf content).get ⟨i, hi⟩))).names ≠ []
      rw [aggOf_names]
      simpa using hne
  · intro commits ps ig θ f hf
    obtain ⟨c, -, hw⟩ := List.mem_flatMap.1 hf
    obtain ⟨nm, content, -, hb⟩ := walkStack_mem c.id ps ig θ _ f hw
    obtain ⟨i, hi, hne, hf'⟩ := (scanBlobFindings_mem_iff c.id nm ps θ content f).1 hb
    rw [hf']
    show (aggOf (matchersBlob ps θ ((linesOf content).get ⟨i, hi⟩))).names ≠ []
    rw [aggOf_names]
    simpa using hne

/-- Witness for C10: both clauses applied to concrete findings of the
concrete file scan and git history scan. -/
theorem C10_witness :
    (⟨"p", 1, "xa", ["R1", "R2"], insert "t2" {"t1"},
      combinedConf [1/2, 3/4]⟩ : Finding).matched_rules ≠ [] ∧
    (⟨"git:c1:k.txt", 1, "ab", ["R2"], {"t2"},
      combinedConf [3/4]⟩ : Finding).matched_rules ≠ [] :=
  ⟨C10_matched_rules_nonempty.1 "p" [ruleA, ruleB] (some " xa \nb") _
     (by rw [eval_scanAB]; exact List.mem_singleton.2 rfl),
   C10_matched_rules_nonempty.2 [⟨"c1", treeG⟩, ⟨"c2", treeG⟩, ⟨"c3", treeG⟩]
     [ruleB] [] 1 _ (by rw [eval_git_G]; exact List.mem_cons_self _ _)⟩

/-- C3: in the git history scanner the entropy gate applies per matching
line before aggregation: a line whose own entropy is below the threshold
never contributes to any finding of that blob, whatever the other lines
do; and every finding of the stack walk arises from some blob's per-blob
scan. -/
theorem C3_git_entropy_per_line :
    (∀ (cid nm : String) (ps : List Rule) (θ : ℝ) (content : String) (i : Nat)
       (hi : i < (linesOf content).length),
       shannon_entropy (strBytes ((linesOf content).get ⟨i, hi⟩)) < θ →
       ∀ f ∈ scanBlobFindings cid nm ps θ content, f.line ≠ i + 1) ∧
    (∀ (cid : String) (ps : List Rule) (ig : List String) (θ : ℝ)
       (st : List (List (Option String × GitObj))) (f : Finding),
       f ∈ walkStack cid ps ig θ st →
       ∃ nm content, f ∈ scanBlobFindings cid nm ps θ content) := by
  constructor
  · intro cid nm ps θ content i hi hent f hf hline
    obtain ⟨j, hj, hne, hf'⟩ := (scanBlobFindings_mem_iff cid nm ps θ content f).1 hf
    have hfl : f.line = j + 1 := by rw [hf']; rfl
    have hij : j = i := by omega
    subst hij
    apply hne
    have hget : (linesOf content).get ⟨j, hj⟩ = (linesOf content).get ⟨j, hi⟩ := rfl
    unfold matchersBlob
    rw [hget, if_neg (not_le.2 hent)]
  · intro cid ps ig θ st f hf
    obtain ⟨nm, content, -, hb⟩ := walkStack_mem cid ps ig θ st f hf
    exact ⟨nm, content, hb⟩

/-- Witness for C3: in the blob `"aa\nab"` scanned at threshold `1`, the
first line matches the rule but has entropy `0 < 1` and contributes no
finding, while the second matching line, with entropy `1 ≥ 1`, does. -/
theorem C3_witness :
    ruleB.regex "aa" = true ∧
    shannon_entropy (strBytes ((linesOf "aa\nab").get ⟨0, by decide⟩)) < 1 ∧
    (∀ f ∈ scanBlobFindings "c" "k" [ruleB] 1 "aa\nab", f.line ≠ 0 + 1) ∧
    (∃ f ∈ scanBlobFindings "c" "k" [ruleB] 1 "aa\nab", f.line = 2) := by
  have hg : ((linesOf "aa\nab").get ⟨0, by decide⟩) = "aa" := rfl
  have hent : shannon_entropy (strBytes ((linesOf "aa\nab").get ⟨0, by decide⟩)) < 1 := by
    rw [hg, ent_aa]
    norm_num
  refine ⟨by decide, hent, ?_, ?_⟩
  · exact C3_git_entropy_per_line.1 "c" "k" [ruleB] 1 "aa\nab" 0 (by decide) hent
  · refine ⟨⟨"git:" ++ "c" ++ ":" ++ "k", 2, "ab", ["R2"], {"t2"},
      combinedConf [3/4]⟩, ?_, rfl⟩
    rw [eval_blob_aaab]
    exact List.mem_singleton.2 rfl

/-- C4: the four post-scan filters of `main` commute — applying them as
single retain passes in any order yields exactly the pipeline's output;
the pipeline keeps a finding iff it passes all four checks; and the
entropy check is evaluated on the finding's aggregated trimmed snippet. -/
theorem C4_filter_order :
    (∀ (mc : Option ℚ) (ex inc : Option (List String)) (θ : ℝ)
       (ks : List PostFilterKind) (fs : List Finding),
       ks.Perm [PostFilterKind.minC, PostFilterKind.excl, PostFilterKind.incl,
         PostFilterKind.entr] →
       applyFilters mc ex inc θ ks fs = postFilter mc ex inc θ fs) ∧
    (∀ (mc : Option ℚ) (ex inc : Option (List String)) (θ : ℝ)
       (fs : List Finding) (f : Finding),
       f ∈ postFilter mc ex inc θ fs ↔
         f ∈ fs ∧ keepMinConf mc f ∧ keepExclude ex f ∧ keepInclude inc f ∧
           shannon_entropy (strBytes f.snippet) ≥ θ) ∧
    (∀ (path : String) (ps : List Rule) (content : String) (mc : Option ℚ)
       (ex inc : Option (List String)) (θ : ℝ) (f : Finding),
       f ∈ postFilter mc ex inc θ (scan_file path ps (some content)) →
       ∃ i, ∃ hi : i < (linesOf content).length,
         f.snippet = strTrim ((linesOf content).get ⟨i, hi⟩) ∧
         shannon_entropy (strBytes f.snippet) ≥ θ) := by
  refine ⟨?_, ?_, ?_⟩
  · intro mc ex inc θ ks fs hperm
    rw [applyFilters_eq_retainP, postFilter_eq_applyFilters, applyFilters_eq_retainP]
    apply retainP_congr
    intro f
    constructor
    · intro h k hk
      exact h k (hperm.mem_iff.2 hk)
    · intro h k hk
      exact h k (hperm.mem_iff.1 hk)
  · intro mc ex inc θ fs f
    exact mem_postFilter mc ex inc θ fs f
  · intro path ps content mc ex inc θ f hf
    have h1 := (mem_postFilter mc ex inc θ _ f).1 hf
    obtain ⟨i, hi, hne, hf'⟩ := (scan_file_mem_iff path ps content f).1 h1.1
    refine ⟨i, hi, ?_, h1.2.2.2.2⟩
    rw [hf']
    rfl

/-- Witness for C4: a nontrivial reordering of the four filters applied to
a concrete scan equals the pipeline, and the snippet clause applied to a
concrete surviving finding. -/
theorem C4_witness :
    applyFilters none none none 0
        [PostFilterKind.entr, PostFilterKind.minC, PostFilterKind.excl,
         PostFilterKind.incl]
        (scan_file "p" [ruleA, ruleB] (some " xa \nb")) =
      postFilter none none none 0 (scan_file "p" [ruleA, ruleB] (some " xa \nb")) ∧
    (∃ i, ∃ hi : i < (linesOf " xa \nb").length,
      (⟨"p", 1, "xa", ["R1", "R2"], insert "t2" {"t1"},
        combinedConf [1/2, 3/4]⟩ : Finding).snippet =
          strTrim ((linesOf " xa \nb").get ⟨i, hi⟩) ∧
      shannon_entropy (strBytes (⟨"p", 1, "xa", ["R1", "R2"], insert "t2" {"t1"},
        combinedConf [1/2, 3/4]⟩ : Finding).snippet) ≥ (0 : ℝ)) := by
  constructor
  · exact C4_filter_order.1 none none none 0 _ _
      ((List.perm_append_singleton PostFilterKind.entr
        [PostFilterKind.minC, PostFilterKind.excl, PostFilterKind.incl]).symm)
  · apply C4_filter_order.2.2 "p" [ruleA, ruleB] " xa \nb" none none none 0
    refine (mem_postFilter none none none 0 _ _).2
      ⟨by rw [eval_scanAB]; exact List.mem_singleton.2 rfl, ?_, trivial, trivial, ?_⟩
    · show ¬ (combinedConf [1/2, 3/4] : ℚ) < (none : Option ℚ).getD 0
      norm_num [combinedConf]
    · show shannon_entropy (strBytes "xa") ≥ 0
      rw [ent_xa]
      norm_num

/-- C8: the git scanner rescans every commit's tree independently with no
cross-commit deduplication: with all commit trees equal to `T`, the
history scan's finding count is the commit count times the per-tree
finding count, and every finding of a commit's walk appears in the
history scan. -/
theorem C8_no_cross_commit_dedup :
    (∀ (commits : List Commit) (ps : List Rule) (ig : List String) (θ : ℝ)
       (T : List (Option String × GitObj)) (cid₀ : String),
       (∀ c ∈ commits, c.tree = T) →
       (scan_git_history commits ps ig θ).length =
         commits.length * (walkStack cid₀ ps ig θ [T]).length) ∧
    (∀ (commits : List Commit) (ps : List Rule) (ig : List String) (θ : ℝ)
       (c : Commit), c ∈ commits →
       ∀ f ∈ walkStack c.id ps ig θ [c.tree],
         f ∈ scan_git_history commits ps ig θ) := by
  constructor
  · intro commits ps ig θ T cid₀ h
    exact scan_git_history_length commits ps ig θ T cid₀ h
  · intro commits ps ig θ c hc f hf
    exact mem_scan_git_history_of_mem commits ps ig θ c hc f hf

/-- Witness for C8: three commits sharing one secret-bearing tree yield
exactly three findings, one per commit. -/
theorem C8_witness :
    (scan_git_history [⟨"c1", treeG⟩, ⟨"c2", treeG⟩, ⟨"c3", treeG⟩]
      [ruleB] [] 1).length = 3 := by
  have h := C8_no_cross_commit_dedup.1
    [⟨"c1", treeG⟩, ⟨"c2", treeG⟩, ⟨"c3", treeG⟩] [ruleB] [] 1 treeG "c0"
    (by
      intro c hc
      simp only [List.mem_cons, List.not_mem_nil, or_false] at hc
      rcases hc with rfl | rfl | rfl <;> rfl)
  rw [h, eval_walk_G]
  rfl

end Lss
